import Mathlib

/-!
Verification of the coordinate-assignment script (`src/script.py`).

The script enriches a CSV table of bird observations with coordinates drawn
from a master CSV, matching by a normalized species name.  This file gives a
shallow embedding of the script's data model and operations and proves the
frozen claims about it.

Modelling conventions:
* A Python string is a `List Nat` of Unicode code points (`Str`).
* Python's `\s` character class and `str.strip()` are modelled on the ASCII
  whitespace range `{9, 10, 11, 12, 13, 32}`; `str.casefold()` is modelled as
  ASCII lower-casing (full Unicode case folding restricted to ASCII, which is
  what every input exercised here uses).
* A table cell is `Cell`: missing (`NaN`), a parsed number, or raw text.
* Floating point numbers are modelled as rationals; the `f"{x:.6f}"`
  formatting is modelled exactly at the rational level (round half up), which
  is faithful for every value used in the claims.
* The seeded `numpy` generator is modelled as an arbitrary stream
  `Nat → Nat` of raw draws, consumed one value per sampled row;
  `rng.integers(0, k)` returns the next raw value reduced `% k`, which is the
  generator's contract (a value uniform in `[0, k)`).
-/

namespace CoordScript

/-- Strings as lists of Unicode code points. -/
abbrev Str := List Nat

/-- Python `\s` on the ASCII range: space, tab, newline, carriage return,
vertical tab, form feed.  (`script.py` uses `re.sub(r"\s+", ...)`.) -/
def isSpace (c : Nat) : Bool :=
  c = 32 || c = 9 || c = 10 || c = 13 || c = 11 || c = 12

/-- One character of `str.casefold()`, restricted to ASCII: `A`–`Z` map to
`a`–`z`, everything else is fixed. -/
def foldChar (c : Nat) : Nat :=
  if 65 ≤ c ∧ c ≤ 90 then c + 32 else c

/-- `str.casefold()` (ASCII fragment): code-point-wise folding. -/
def casefold (s : Str) : Str := s.map foldChar

/-- Helper for `re.sub(r"\s+", " ", s)`: the flag records whether the previous
character was whitespace (in which case further whitespace is dropped rather
than emitting another `' '`). -/
def collapseAux : Bool → Str → Str
  | _, [] => []
  | prevSpace, c :: cs =>
    if isSpace c then
      if prevSpace then collapseAux true cs
      else 32 :: collapseAux true cs
    else c :: collapseAux false cs

/-- `re.sub(r"\s+", " ", s)`: every maximal whitespace run becomes one space. -/
def collapseWS (s : Str) : Str := collapseAux false s

/-- `str.strip()` restricted to ASCII whitespace. -/
def strip (s : Str) : Str :=
  ((s.dropWhile isSpace).reverse.dropWhile isSpace).reverse

/-- The `.*?\)` part of the pattern `\s*\(.*?\)\s*`:  scan for the first `)`
(code 41); `.` does not match a newline (code 10), so a newline before the
first `)` makes the match attempt fail.  Returns the characters after `)`. -/
def scanBody : Str → Option Str
  | [] => none
  | c :: cs => if c = 41 then some cs else if c = 10 then none else scanBody cs

/-- One attempt of the pattern `\s*\(.*?\)\s*` anchored at the start of `l`:
greedy leading whitespace must be followed by `(` (code 40), then a
newline-free body up to the first `)`, then greedy trailing whitespace.
Returns the remainder after the whole match. -/
def matchAt (l : Str) : Option Str :=
  match l.dropWhile isSpace with
  | c :: rest => if c = 40 then (scanBody rest).map (fun r => r.dropWhile isSpace) else none
  | [] => none

/-- Fuelled implementation of `re.sub(r"\s*\(.*?\)\s*", " ", s)`:  at each
position try the pattern; on a match emit one space and continue after the
match, otherwise emit the character and move one position right (the
left-to-right, non-overlapping semantics of `re.sub`).  Fuel only bounds the
recursion; `subParens` always supplies enough. -/
def subParensF : Nat → Str → Str
  | 0, l => l
  | _ + 1, [] => []
  | fuel + 1, c :: cs =>
    match matchAt (c :: cs) with
    | some rest => 32 :: subParensF fuel rest
    | none => c :: subParensF fuel cs

/-- `re.sub(r"\s*\(.*?\)\s*", " ", s)` from `normalize_species`. -/
def subParens (s : Str) : Str := subParensF s.length s

/-- `normalize_species` on an actual string (the non-`NaN` branch):
remove parenthesized spans, collapse whitespace, strip, casefold. -/
def normalize_species (s : Str) : Str :=
  casefold (strip (collapseWS (subParens s)))

/-! ### Invariants used to analyse idempotence of the normalizer

`noPairs l`: no `(` in `l` is ever followed (anywhere later) by a `)`.
A string with this property contains no match of `\s*\(.*?\)\s*`. -/

/-- After the first `(` (if any) there is no `)` at all. -/
def noPairs : Str → Bool
  | [] => true
  | c :: rest => if c = 40 then rest.all (fun x => decide (x ≠ 41)) else noPairs rest

/-- Every whitespace character is a plain space (code 32). -/
def sp32 (l : Str) : Bool := l.all (fun c => !isSpace c || c = 32)

/-- No two adjacent whitespace characters. -/
def noAdj : Str → Bool
  | [] => true
  | [_] => true
  | a :: b :: rest => (!(isSpace a && isSpace b)) && noAdj (b :: rest)

/-- The head (if any) is not whitespace. -/
def headNS : Str → Bool
  | [] => true
  | c :: _ => !isSpace c

/-! ### Sorting of normalized names (Python `sorted` on code-point strings) -/

/-- Lexicographic comparison of code-point strings (Python string `<=`). -/
def strLe : Str → Str → Bool
  | [], _ => true
  | _ :: _, [] => false
  | a :: as, b :: bs => if a < b then true else if b < a then false else strLe as bs

/-- `strLe` as a relation. -/
def StrLe (a b : Str) : Prop := strLe a b = true

instance : DecidableRel StrLe := fun a b => inferInstanceAs (Decidable (strLe a b = true))

/-- Strict lexicographic order (ascending and duplicate-free in one notion). -/
def StrLt (a b : Str) : Prop := StrLe a b ∧ a ≠ b

/-- Python `sorted(...)` on a list of strings. -/
def sortStr (l : List Str) : List Str := List.insertionSort StrLe l

/-! ### Cells, numeric parsing, and `%.6f` formatting -/

/-- One table cell: missing (`NaN`), a numeric value, or text. -/
inductive Cell where
  | na : Cell
  | num : ℚ → Cell
  | text : Str → Cell
deriving DecidableEq

/-- ASCII digit test. -/
def isDigitCh (c : Nat) : Bool := 48 ≤ c && c ≤ 57

/-- Value of a digit string. -/
def digitsToNat (l : Str) : Nat := l.foldl (fun a c => a * 10 + (c - 48)) 0

/-- Parse an unsigned decimal numeral (`"12"`, `"12.5"`, `".5"`, `"3."`). -/
def parseUnsigned (s : Str) : Option ℚ :=
  let ip := s.takeWhile isDigitCh
  let rest := s.dropWhile isDigitCh
  match rest with
  | [] => if ip.isEmpty then none else some (digitsToNat ip)
  | 46 :: fp =>
    if (ip.isEmpty && fp.isEmpty) || !fp.all isDigitCh then none
    else some ((digitsToNat ip : ℚ) + (digitsToNat fp : ℚ) / (10 : ℚ) ^ fp.length)
  | _ => none

/-- `float(str)` / `pd.to_numeric(..., errors="coerce")` on a text cell:
optional surrounding whitespace and sign, plain decimal notation (the inputs
in scope use no exponents). -/
def parseDecimal (s : Str) : Option ℚ :=
  match strip s with
  | 45 :: rest => (parseUnsigned rest).map Neg.neg
  | 43 :: rest => parseUnsigned rest
  | t => parseUnsigned t

/-- `pd.to_numeric(..., errors="coerce")` on a cell. -/
def toNumeric : Cell → Option ℚ
  | Cell.na => none
  | Cell.num q => some q
  | Cell.text s => parseDecimal s

/-- Fuelled decimal rendering of a natural number (most significant first). -/
def natStrF : Nat → Nat → Str
  | 0, _ => []
  | fuel + 1, n => if n < 10 then [48 + n] else natStrF fuel (n / 10) ++ [48 + n % 10]

/-- Decimal rendering of a natural number. -/
def natStr (n : Nat) : Str := natStrF (n + 1) n

/-- Left-pad with `0` to six digits. -/
def pad6 (n : Nat) : Str := List.replicate (6 - (natStr n).length) 48 ++ natStr n

/-- `f"{x:.6f}"` at the rational level: sign, integer digits, `.`, exactly six
fractional digits.  `n` is `round(|q| * 10^6)` computed on numerator and
denominator (`⌊(2a + d) / 2d⌋` for `|q| = a/d`); every value in the claims is
exact, so the rounding mode is immaterial. -/
def fmt6 (q : ℚ) : Str :=
  let n : Nat := (2 * q.num.natAbs * 1000000 + q.den) / (2 * q.den)
  (if q < 0 then [45] else []) ++ natStr (n / 1000000) ++ 46 :: pad6 (n % 1000000)

/-- Unsigned part of the `%.6f` shape: one or more digits, `.`, exactly six
digits. -/
def sixCore (t : Str) : Bool :=
  (!(t.takeWhile isDigitCh).isEmpty) &&
    (t.dropWhile isDigitCh).head? = some 46 &&
    (t.dropWhile isDigitCh).tail.length = 6 &&
    (t.dropWhile isDigitCh).tail.all isDigitCh

/-- Shape of a `%.6f` rendering: optional `-`, one or more digits, `.`,
exactly six digits. -/
def is6dec (s : Str) : Bool :=
  sixCore (if s.head? = some 45 then s.tail else s)

/-! ### The data-frame model (columnar, as in pandas) -/

/-- A data frame: ordered association of column label to column values. -/
abbrev Frame := List (Str × List Cell)

/-- Column labels, in order. -/
def colNames (f : Frame) : List Str := f.map Prod.fst

/-- `df[c]`: first column with that label (`[]` if absent). -/
def getCol : Frame → Str → List Cell
  | [], _ => []
  | (c', v) :: rest, c => if c' = c then v else getCol rest c

/-- `df[c] = v`: overwrite an existing column in place, else append a new
column at the end (pandas column-assignment semantics). -/
def setCol : Frame → Str → List Cell → Frame
  | [], c, v => [(c, v)]
  | (c', v') :: rest, c, v =>
    if c' = c then (c, v) :: rest else (c', v') :: setCol rest c v

/-- `df.drop(columns=[c], errors="ignore")`. -/
def dropCol (f : Frame) (c : Str) : Frame := f.filter (fun p => decide (p.1 ≠ c))

/-- Cell at row `i` of column `c` (`NaN` when out of range). -/
def getCell (f : Frame) (c : Str) (i : Nat) : Cell := (getCol f c).getD i Cell.na

/-! ### Column resolution (`find_col`) -/

/-- A header normalized for matching: whitespace-collapsed, stripped,
casefolded (line 41 of the script). -/
def headerNorm (c : Str) : Str := casefold (strip (collapseWS c))

/-- Payload of the `KeyError` raised by `find_col`: exactly the data
interpolated into `"No se encontró ninguna de las columnas esperadas:
{candidates} en {columns}"`. -/
structure ColErr where
  candidates : List Str
  columns : List Str
deriving DecidableEq

/-- `find_col`: first column whose normalized header equals one of the
(casefolded) candidates; `KeyError` if none matches. -/
def find_col (columns : List Str) (cands : List Str) : Except ColErr Str :=
  match columns.find? (fun c => decide (headerNorm c ∈ cands.map casefold)) with
  | some c => Except.ok c
  | none => Except.error ⟨cands, columns⟩

/-! ### Column-name constants (code points of the ASCII strings) -/

/-- Code points of a string literal, for readable concrete inputs. -/
def encode (s : String) : Str := s.data.map Char.toNat

/-- `"lat"` -/
def latName : Str := [108, 97, 116]

/-- `"lopnong"` — the script's kept typo for the longitude output column. -/
def lonName : Str := [108, 111, 112, 110, 111, 110, 103]

/-- `"lat_lon"` -/
def latlonName : Str := [108, 97, 116, 95, 108, 111, 110]

/-- `"_species_norm"` -/
def spnName : Str := [95, 115, 112, 101, 99, 105, 101, 115, 95, 110, 111, 114, 109]

/-- Candidate headers for the master's name column. -/
def nameCands : List Str :=
  [encode "nombre de ave", encode "nombre_de_ave", encode "nombre",
   encode "especie", encode "species"]

/-- Candidate headers for the master's latitude column. -/
def latCands : List Str := [encode "latitud", encode "lat"]

/-- Candidate headers for the master's longitude column (tolerating the typo). -/
def lonCands : List Str :=
  [encode "longitud", encode "lon", encode "long", encode "lopnong"]

/-- Candidate headers for the observation table's species column. -/
def speciesCands : List Str :=
  [encode "species", encode "especie", encode "nombre de ave", encode "nombre"]

/-! ### `load_master` -/

/-- `normalize_species` on a cell (`pd.isna` branch returns `""`).  A numeric
cell would be rendered by `str()` first; no claim exercises that path, the
6-digit rendering stands in for totality. -/
def normalize_cell : Cell → Str
  | Cell.na => []
  | Cell.text s => normalize_species s
  | Cell.num q => normalize_species (fmt6 q)

/-- A master row: (name cell, latitude cell, longitude cell). -/
abbrev MRow := Cell × Cell × Cell

/-- The `dropna(subset=["_nombre_norm", "_lat", "_lon"])` test.  The
`_nombre_norm` component never fires: `normalize_species` always returns a
string (possibly empty), never `NaN`, so only the two coordinate columns can
drop a row (this is the slip documented under claim C2). -/
def validRow (r : MRow) : Bool :=
  (toNumeric r.2.1).isSome && (toNumeric r.2.2).isSome

/-- Normalized name of a master row. -/
def mName (r : MRow) : Str := normalize_cell r.1

/-- The coordinate pair of a (valid) master row. -/
def mPair (r : MRow) : ℚ × ℚ :=
  ((toNumeric r.2.1).getD 0, (toNumeric r.2.2).getD 0)

/-- The master index: normalized name ↦ candidate coordinate pairs. -/
abbrev Master := List (Str × List (ℚ × ℚ))

/-- Dict lookup (`master.get(sp, None)` / `s in master`). -/
def lookupM : Master → Str → Option (List (ℚ × ℚ))
  | [], _ => none
  | (k, v) :: rest, s => if k = s then some v else lookupM rest s

/-- The candidate pairs of one `groupby("_nombre_norm")` group, in the
original row order. -/
def groupCoords (valid : List MRow) (s : Str) : List (ℚ × ℚ) :=
  valid.filterMap fun r => if mName r = s then some (mPair r) else none

/-- Grouping phase of `load_master`: drop rows with unparseable coordinates,
group the rest by normalized name (pandas `groupby` sorts keys and keeps the
original row order inside each group), and keep only groups with at least one
pair (`if coords:`). -/
def buildMaster (rows : List MRow) : Master :=
  let valid := rows.filter validRow
  (sortStr ((valid.map mName).dedup)).filterMap fun s =>
    if (groupCoords valid s).isEmpty then none
    else some (s, groupCoords valid s)

/-- The three resolved master columns (name, latitude, longitude). -/
def masterCols (f : Frame) : Except ColErr (Str × Str × Str) := do
  let cn ← find_col (colNames f) nameCands
  let cla ← find_col (colNames f) latCands
  let clo ← find_col (colNames f) lonCands
  pure (cn, cla, clo)

/-- The extracted (name, lat, lon) rows of the master table. -/
def masterRows (f : Frame) : List MRow :=
  match masterCols f with
  | Except.ok (cn, cla, clo) =>
    (getCol f cn).zip ((getCol f cla).zip (getCol f clo))
  | Except.error _ => []

/-- `load_master`: resolve the three columns (propagating the `KeyError`),
then build the index. -/
def load_master (f : Frame) : Except ColErr Master :=
  (masterCols f).map fun _ => buildMaster (masterRows f)

/-! ### `assign_coords` -/

/-- Normalized species of every row, in row order (`out["_species_norm"]`). -/
def normsOf (f : Frame) (sc : Str) : List Str := (getCol f sc).map normalize_cell

/-- Row positions (ascending) of one normalized species: one `groupby` group. -/
def positions (norms : List Str) (s : Str) : List Nat :=
  (List.range norms.length).filter (fun i => decide (norms.getD i [] = s))

/-- The `groupby("_species_norm")` keys: distinct normalized names in
ascending order (pandas sorts group keys by default). -/
def sortedKeys (norms : List Str) : List Str := sortStr norms.dedup

/-- `rng.integers(0, k)` on the modelled stream: next raw value `% k`. -/
def drawAt (stream : Nat → Nat) (pos k : Nat) : Nat := stream pos % k

/-- Assign one group, one draw per row in original row order, threading the
stream position; `v` maps row indices to their assigned pair (if any). -/
def assignRowsV (stream : Nat → Nat) (coords : List (ℚ × ℚ)) :
    List Nat → Nat → List (Option (ℚ × ℚ)) → List (Option (ℚ × ℚ)) × Nat
  | [], pos, v => (v, pos)
  | i :: rest, pos, v =>
    assignRowsV stream coords rest (pos + 1)
      (v.set i (some (coords.getD (drawAt stream pos coords.length) (0, 0))))

/-- The script's two branches: a singleton group takes one scalar draw
(`rng.integers(0, k)`); a larger group takes one vectorized draw per row
(`rng.integers(0, k, size=n)`).  Both consume one stream value per row. -/
def assignGroupV (stream : Nat → Nat) (coords : List (ℚ × ℚ)) (idxs : List Nat)
    (pos : Nat) (v : List (Option (ℚ × ℚ))) : List (Option (ℚ × ℚ)) × Nat :=
  match idxs with
  | [i] =>
    (v.set i (some (coords.getD (drawAt stream pos coords.length) (0, 0))), pos + 1)
  | idxs => assignRowsV stream coords idxs pos v

/-- The `for sp, idx in out.groupby("_species_norm").groups.items():` loop;
groups with no master entry or an empty candidate list are skipped
(`if not coords_list: continue`). -/
def assignLoopV (stream : Nat → Nat) (master : Master) (norms : List Str) :
    List Str → Nat → List (Option (ℚ × ℚ)) → List (Option (ℚ × ℚ))
  | [], _, v => v
  | s :: ss, pos, v =>
    match lookupM master s with
    | none => assignLoopV stream master norms ss pos v
    | some [] => assignLoopV stream master norms ss pos v
    | some coords =>
      let r := assignGroupV stream coords (positions norms s) pos v
      assignLoopV stream master norms ss r.2 r.1

/-- Per-row assigned coordinate pairs for the whole table. -/
def assignVec (stream : Nat → Nat) (master : Master) (norms : List Str) :
    List (Option (ℚ × ℚ)) :=
  assignLoopV stream master norms (sortedKeys norms) 0 (List.replicate norms.length none)

/-- The assigned pairs inside `assign_coords f sc master stream`. -/
def coordVec (f : Frame) (sc : Str) (master : Master) (stream : Nat → Nat) :
    List (Option (ℚ × ℚ)) :=
  assignVec stream master (normsOf f sc)

/-- `fmt_pair` of the script: empty when either side is missing (the pairs are
always written together), else both sides in `%.6f` joined by a comma. -/
def fmt_pair : Option (ℚ × ℚ) → Str
  | none => []
  | some p => fmt6 p.1 ++ 44 :: fmt6 p.2

/-- `assign_coords`: add `_species_norm`, write the numeric `lat` / `lopnong`
columns (NaN-initialized then filled by the group loop; the loop only writes
these two columns and only reads `_species_norm`, so its net effect is
`coordVec`), derive `lat_lon` from the numeric values, re-format `lat` and
`lopnong` as 6-digit strings, and drop `_species_norm`. -/
def assign_coords (f : Frame) (sc : Str) (master : Master) (stream : Nat → Nat) : Frame :=
  let vec := coordVec f sc master stream
  let f1 := setCol f spnName ((normsOf f sc).map Cell.text)
  let f2 := setCol f1 latName (vec.map fun o => match o with
    | none => Cell.na
    | some p => Cell.num p.1)
  let f3 := setCol f2 lonName (vec.map fun o => match o with
    | none => Cell.na
    | some p => Cell.num p.2)
  let f4 := setCol f3 latlonName (vec.map fun o => Cell.text (fmt_pair o))
  let f5 := setCol f4 latName (vec.map fun o => Cell.text (match o with
    | none => []
    | some p => fmt6 p.1))
  let f6 := setCol f5 lonName (vec.map fun o => Cell.text (match o with
    | none => []
    | some p => fmt6 p.2))
  dropCol f6 spnName

/-! ### The driver's no-match report -/

/-- `no_match = sorted([s for s in species_in_table if s and s not in master])`. -/
def no_match_list (f : Frame) (sc : Str) (master : Master) : List Str :=
  sortStr ((normsOf f sc).dedup.filter fun s =>
    decide (s ≠ []) && decide (lookupM master s = none))

/-- The report as the spec's invariant literally words it (claim C1):
distinct normalized names minus the master keys, deduplicated and sorted —
without the script's additional exclusion of the empty name. -/
def no_match_spec_version (f : Frame) (sc : Str) (master : Master) : List Str :=
  sortStr ((normsOf f sc).dedup.filter fun s => decide (lookupM master s = none))

/-! ### Stream-consumption bookkeeping (claim C9) -/

/-- Number of stream draws one group consumes (0 when it is skipped). -/
def groupLen (master : Master) (norms : List Str) (s : Str) : Nat :=
  match lookupM master s with
  | none => 0
  | some [] => 0
  | some _ => (positions norms s).length

/-- Draws consumed before the group of `s` in a processed key list. -/
def offsetIn (master : Master) (norms : List Str) : List Str → Str → Nat
  | [], _ => 0
  | s' :: ss, s =>
    if s' = s then 0 else groupLen master norms s' + offsetIn master norms ss s

/-! ### Decidable equality for `Except` results -/

instance {e a : Type} [DecidableEq e] [DecidableEq a] : DecidableEq (Except e a) :=
  fun x y =>
    match x, y with
    | Except.ok u, Except.ok v =>
      if h : u = v then isTrue (by rw [h])
      else isFalse (fun hc => h (Except.ok.inj hc))
    | Except.error u, Except.error v =>
      if h : u = v then isTrue (by rw [h])
      else isFalse (fun hc => h (Except.error.inj hc))
    | Except.ok _, Except.error _ => isFalse (fun hc => Except.noConfusion hc)
    | Except.error _, Except.ok _ => isFalse (fun hc => Except.noConfusion hc)

/-! ### Concrete tables used by counterexamples and witnesses -/

/-- An observation table with a single row whose species cell is missing. -/
def obsNaFrame : Frame := [(encode "species", [Cell.na])]

/-- A master table whose single row has a missing name but valid coordinates. -/
def masterNaNameFrame : Frame :=
  [(encode "nombre", [Cell.na]),
   (encode "latitud", [Cell.num 1]),
   (encode "longitud", [Cell.num 2])]

/-- A small master table: two names with distinct valid coordinate rows. -/
def masterTwoFrame : Frame :=
  [(encode "nombre de ave", [Cell.text (encode "Ave Una"), Cell.na]),
   (encode "latitud", [Cell.num 3, Cell.num 30]),
   (encode "longitud", [Cell.num 4, Cell.num 40])]

/-- An observation table that already carries a `lat` column. -/
def obsLatFrame : Frame :=
  [(encode "species", [Cell.text (encode "a")]),
   (latName, [Cell.text (encode "x")])]

/-- An observation table for the stream-consumption demonstration: species
column `[b, a, a]`, id column `[1, 2, 3]`. -/
def obsOrderFrame : Frame :=
  [(encode "species",
    [Cell.text (encode "b"), Cell.text (encode "a"), Cell.text (encode "a")]),
   (encode "id", [Cell.num 1, Cell.num 2, Cell.num 3])]

/-- The same rows rotated by two (a permutation that moves the second `a` row
across the `b` row): species `[a, b, a]`, id `[3, 1, 2]`. -/
def obsOrderFrameRot : Frame :=
  [(encode "species",
    [Cell.text (encode "a"), Cell.text (encode "b"), Cell.text (encode "a")]),
   (encode "id", [Cell.num 3, Cell.num 1, Cell.num 2])]

/-- Master index for the demonstration: two candidates per species. -/
def masterDemo : Master :=
  [(encode "a", [(0, 0), (5, 5)]), (encode "b", [(7, 7), (9, 9)])]

/-- A single-species observation table with one matched and one missing row. -/
def obsSmallFrame : Frame :=
  [(encode "species", [Cell.text (encode "Ave Una"), Cell.na])]

/-! ### Basic facts about the fuelled substitution -/

theorem scanBody_length : ∀ l r, scanBody l = some r → r.length < l.length := by
  intro l
  induction l with
  | nil => intro r h; simp [scanBody] at h
  | cons c cs ih =>
    intro r h
    simp only [scanBody] at h
    by_cases h41 : c = 41
    · simp [h41] at h
      subst h
      simp
    · by_cases h10 : c = 10
      · simp [h41, h10] at h
      · simp [h41, h10] at h
        exact Nat.lt_trans (ih r h) (by simp)

theorem matchAt_length : ∀ l r, matchAt l = some r → r.length < l.length := by
  intro l r h
  unfold matchAt at h
  split at h
  next c rest heq =>
    by_cases h40 : c = 40
    · rw [if_pos h40, Option.map_eq_some'] at h
      obtain ⟨r0, hr0, hr⟩ := h
      have h1 : r0.length < rest.length := scanBody_length rest r0 hr0
      have h2 : r.length ≤ r0.length := by
        rw [← hr]; exact (List.dropWhile_sublist _).length_le
      have h3 : (c :: rest).length ≤ l.length := by
        rw [← heq]; exact (List.dropWhile_sublist _).length_le
      simp only [List.length_cons] at h3
      omega
    · rw [if_neg h40] at h
      exact absurd h (by simp)
  next heq => exact absurd h (by simp)

theorem subParensF_congr : ∀ n m l, l.length ≤ n → l.length ≤ m →
    subParensF n l = subParensF m l := by
  intro n
  induction n with
  | zero =>
    intro m l hn _
    have : l = [] := List.length_eq_zero.mp (Nat.le_zero.mp hn)
    subst this
    cases m <;> rfl
  | succ n ih =>
    intro m l hn hm
    cases l with
    | nil => cases m <;> rfl
    | cons c cs =>
      cases m with
      | zero => simp at hm
      | succ m =>
        rcases hma : matchAt (c :: cs) with _ | rest
        · simp only [subParensF, hma]
          have hcs : cs.length ≤ n := by simp at hn; omega
          have hcs' : cs.length ≤ m := by simp at hm; omega
          rw [ih m cs hcs hcs']
        · have hlen := matchAt_length _ _ hma
          simp only [List.length_cons] at hlen hn hm
          simp only [subParensF, hma]
          rw [ih m rest (by omega) (by omega)]

/-- The recursion equation for `subParens` (fuel-free view). -/
theorem subParens_eq (c : Nat) (cs : Str) :
    subParens (c :: cs) =
      match matchAt (c :: cs) with
      | some rest => 32 :: subParens rest
      | none => c :: subParens cs := by
  rcases hma : matchAt (c :: cs) with _ | rest
  · show subParensF (cs.length + 1) (c :: cs) = _
    simp only [subParensF, hma]
    rfl
  · have hlen := matchAt_length _ _ hma
    simp only [List.length_cons] at hlen
    show subParensF (cs.length + 1) (c :: cs) = _
    simp only [subParensF, hma]
    rw [subParensF_congr cs.length rest.length rest (by omega) (le_refl _)]
    rfl

theorem subParens_nil : subParens [] = [] := rfl

theorem noPairs_of_no41 {l : Str} (h : ∀ x ∈ l, x ≠ 41) : noPairs l = true := by
  induction l with
  | nil => rfl
  | cons c cs ih =>
    simp only [noPairs]
    by_cases hc : c = 40
    · rw [if_pos hc, List.all_eq_true]
      intro x hx
      simpa using h x (List.mem_cons_of_mem _ hx)
    · rw [if_neg hc]
      exact ih fun x hx => h x (List.mem_cons_of_mem _ hx)

theorem noPairs_tail {c : Nat} {cs : Str} (h : noPairs (c :: cs) = true) :
    noPairs cs = true := by
  simp only [noPairs] at h
  by_cases hc : c = 40
  · rw [if_pos hc, List.all_eq_true] at h
    exact noPairs_of_no41 fun x hx => by simpa using h x hx
  · rwa [if_neg hc] at h

theorem noPairs_suffix : ∀ (w m : Str), noPairs (w ++ m) = true → noPairs m = true := by
  intro w
  induction w with
  | nil => intro m h; exact h
  | cons c w' ih => intro m h; exact ih m (noPairs_tail h)

theorem noPairs_append_left : ∀ (a b : Str), noPairs (a ++ b) = true → noPairs a = true := by
  intro a
  induction a with
  | nil => intro b _; rfl
  | cons c a' ih =>
    intro b h
    simp only [List.cons_append, noPairs] at h ⊢
    by_cases hc : c = 40
    · rw [if_pos hc] at h ⊢
      rw [List.all_eq_true] at h ⊢
      intro x hx
      exact h x (by simpa using Or.inl hx)
    · rw [if_neg hc] at h ⊢
      exact ih b h

theorem noPairs_cons_ne {c : Nat} {cs : Str} (hc : c ≠ 40) :
    noPairs (c :: cs) = noPairs cs := by
  simp only [noPairs]
  rw [if_neg hc]

theorem scanBody_none_of_no41 {l : Str} (h : ∀ x ∈ l, x ≠ 41) : scanBody l = none := by
  induction l with
  | nil => rfl
  | cons c cs ih =>
    unfold scanBody
    rw [if_neg (h c (List.mem_cons_self _ _))]
    by_cases h10 : c = 10
    · rw [if_pos h10]
    · rw [if_neg h10]
      exact ih fun x hx => h x (List.mem_cons_of_mem _ hx)

theorem scanBody_none_no41 : ∀ {l : Str}, scanBody l = none → (10:Nat) ∉ l → (41:Nat) ∉ l := by
  intro l
  induction l with
  | nil => intro _ _; simp
  | cons c cs ih =>
    intro h h10
    unfold scanBody at h
    by_cases h41 : c = 41
    · rw [if_pos h41] at h; exact absurd h (by simp)
    · rw [if_neg h41] at h
      by_cases hc10 : c = 10
      · exact absurd (hc10 ▸ List.mem_cons_self c cs) h10
      · rw [if_neg hc10] at h
        have := ih h (fun hm => h10 (List.mem_cons_of_mem _ hm))
        simp only [List.mem_cons]
        rintro (rfl | hm)
        · exact h41 rfl
        · exact this hm

theorem scanBody_some_subset : ∀ {l r : Str}, scanBody l = some r → ∀ x ∈ r, x ∈ l := by
  intro l
  induction l with
  | nil => intro r h; simp [scanBody] at h
  | cons c cs ih =>
    intro r h x hx
    unfold scanBody at h
    by_cases h41 : c = 41
    · rw [if_pos h41] at h
      cases h
      exact List.mem_cons_of_mem _ hx
    · rw [if_neg h41] at h
      by_cases h10 : c = 10
      · rw [if_pos h10] at h; exact absurd h (by simp)
      · rw [if_neg h10] at h
        exact List.mem_cons_of_mem _ (ih h x hx)

theorem matchAt_some_subset {l r : Str} (h : matchAt l = some r) : ∀ x ∈ r, x ∈ l := by
  intro x hx
  unfold matchAt at h
  split at h
  next c rest heq =>
    by_cases h40 : c = 40
    · rw [if_pos h40, Option.map_eq_some'] at h
      obtain ⟨r0, hr0, hr⟩ := h
      have hx0 : x ∈ r0 := List.dropWhile_subset _ (hr ▸ hx)
      have : x ∈ c :: rest := List.mem_cons_of_mem _ (scanBody_some_subset hr0 x hx0)
      exact List.dropWhile_subset _ (heq ▸ this)
    · rw [if_neg h40] at h; exact absurd h (by simp)
  next heq => exact absurd h (by simp)

theorem matchAt_none_of_noPairs {l : Str} (h : noPairs l = true) : matchAt l = none := by
  unfold matchAt
  have hsplit : l.takeWhile isSpace ++ l.dropWhile isSpace = l :=
    List.takeWhile_append_dropWhile ..
  split
  next c rest heq =>
    by_cases h40 : c = 40
    · rw [if_pos h40]
      have hnp : noPairs (c :: rest) = true := by
        apply noPairs_suffix (l.takeWhile isSpace)
        rw [← heq, hsplit]
        exact h
      simp only [noPairs] at hnp
      rw [if_pos h40, List.all_eq_true] at hnp
      rw [scanBody_none_of_no41 fun x hx => by simpa using hnp x hx]
      rfl
    · rw [if_neg h40]
  next heq => rfl

theorem subParens_mem : ∀ (n : Nat) (l : Str), l.length ≤ n →
    ∀ x ∈ subParens l, x = 32 ∨ x ∈ l := by
  intro n
  induction n with
  | zero =>
    intro l hl
    have : l = [] := List.length_eq_zero.mp (Nat.le_zero.mp hl)
    subst this
    intro x hx
    simp [subParens, subParensF] at hx
  | succ n ih =>
    intro l hl x hx
    cases l with
    | nil => simp [subParens, subParensF] at hx
    | cons c cs =>
      rw [subParens_eq] at hx
      rcases hma : matchAt (c :: cs) with _ | rest
      · rw [hma] at hx
        rcases List.mem_cons.mp hx with rfl | hx'
        · right; exact List.mem_cons_self _ _
        · rcases ih cs (by simpa using Nat.lt_succ_iff.mp (Nat.lt_of_lt_of_le (by simp) hl)) x hx' with h32 | hm
          · left; exact h32
          · right; exact List.mem_cons_of_mem _ hm
      · rw [hma] at hx
        rcases List.mem_cons.mp hx with rfl | hx'
        · left; rfl
        · have hlen := matchAt_length _ _ hma
          simp only [List.length_cons] at hlen hl
          rcases ih rest (by omega) x hx' with h32 | hm
          · left; exact h32
          · right; exact matchAt_some_subset hma x hm

theorem subParens_noPairs : ∀ (n : Nat) (l : Str), l.length ≤ n → (10:Nat) ∉ l →
    noPairs (subParens l) = true := by
  intro n
  induction n with
  | zero =>
    intro l hl _
    have : l = [] := List.length_eq_zero.mp (Nat.le_zero.mp hl)
    subst this
    rfl
  | succ n ih =>
    intro l hl h10
    cases l with
    | nil => rfl
    | cons c cs =>
      rw [subParens_eq]
      rcases hma : matchAt (c :: cs) with _ | rest
      · -- no match at this position: emit `c`
        by_cases hc : c = 40
        · -- `(` emitted: the body scan failed, and without newlines that
          -- means no `)` occurs anywhere after it
          subst hc
          have hd : List.dropWhile isSpace (40 :: cs) = 40 :: cs := by
            rw [List.dropWhile_cons, if_neg (by decide)]
          have hscan : scanBody cs = none := by
            unfold matchAt at hma
            split at hma
            next c' rest' heq' =>
              rw [hd] at heq'
              injection heq' with h1 h2
              subst h1
              subst h2
              rw [if_pos rfl] at hma
              exact Option.map_eq_none'.mp hma
            next heq' =>
              rw [hd] at heq'
              exact absurd heq' (by simp)
          have h41 : (41:Nat) ∉ cs :=
            scanBody_none_no41 hscan (fun hm => h10 (List.mem_cons_of_mem _ hm))
          unfold noPairs
          rw [if_pos rfl, List.all_eq_true]
          intro x hx
          simp only [decide_eq_true_eq]
          rcases subParens_mem cs.length cs (le_refl _) x hx with h32 | hm
          · omega
          · intro h; exact h41 (h ▸ hm)
        · rw [noPairs_cons_ne hc]
          simp only [List.length_cons] at hl
          exact ih cs (by omega) (fun hm => h10 (List.mem_cons_of_mem _ hm))
      · -- match: emit a space and continue after the match
        rw [noPairs_cons_ne (by omega)]
        have hlen := matchAt_length _ _ hma
        simp only [List.length_cons] at hlen hl
        exact ih rest (by omega) fun hm => h10 (matchAt_some_subset hma 10 hm)

theorem subParens_fix : ∀ (n : Nat) (l : Str), l.length ≤ n → noPairs l = true →
    subParens l = l := by
  intro n
  induction n with
  | zero =>
    intro l hl _
    have : l = [] := List.length_eq_zero.mp (Nat.le_zero.mp hl)
    subst this
    rfl
  | succ n ih =>
    intro l hl hnp
    cases l with
    | nil => rfl
    | cons c cs =>
      rw [subParens_eq, matchAt_none_of_noPairs hnp]
      simp only [List.length_cons] at hl
      rw [ih cs (by omega) (noPairs_tail hnp)]

/-! ### Facts about whitespace collapsing -/

theorem collapseAux_cons_sp_t {c : Nat} {cs : Str} (h : isSpace c = true) :
    collapseAux true (c :: cs) = collapseAux true cs := by
  simp [collapseAux, h]

theorem collapseAux_cons_sp_f {c : Nat} {cs : Str} (h : isSpace c = true) :
    collapseAux false (c :: cs) = 32 :: collapseAux true cs := by
  simp [collapseAux, h]

theorem collapseAux_cons_ns {c : Nat} {cs : Str} (h : isSpace c = false) (b : Bool) :
    collapseAux b (c :: cs) = c :: collapseAux false cs := by
  simp [collapseAux, h]

theorem noPairs_cons40 (cs : Str) :
    noPairs (40 :: cs) = cs.all (fun x => decide (x ≠ 41)) := by
  simp [noPairs]

theorem collapseAux_mem : ∀ (l : Str) (b : Bool) (x : Nat),
    x ∈ collapseAux b l → x = 32 ∨ x ∈ l := by
  intro l
  induction l with
  | nil => intro b x hx; simp [collapseAux] at hx
  | cons c cs ih =>
    intro b x hx
    by_cases hsp : isSpace c = true
    · cases b with
      | true =>
        rw [collapseAux_cons_sp_t hsp] at hx
        rcases ih true x hx with h | h
        · exact Or.inl h
        · exact Or.inr (List.mem_cons_of_mem _ h)
      | false =>
        rw [collapseAux_cons_sp_f hsp] at hx
        rcases List.mem_cons.mp hx with rfl | hx'
        · exact Or.inl rfl
        · rcases ih true x hx' with h | h
          · exact Or.inl h
          · exact Or.inr (List.mem_cons_of_mem _ h)
    · rw [collapseAux_cons_ns (Bool.not_eq_true _ ▸ hsp) b] at hx
      rcases List.mem_cons.mp hx with rfl | hx'
      · exact Or.inr (List.mem_cons_self _ _)
      · rcases ih false x hx' with h | h
        · exact Or.inl h
        · exact Or.inr (List.mem_cons_of_mem _ h)

theorem collapseAux_noPairs : ∀ (l : Str) (b : Bool), noPairs l = true →
    noPairs (collapseAux b l) = true := by
  intro l
  induction l with
  | nil => intro b _; cases b <;> rfl
  | cons c cs ih =>
    intro b h
    by_cases hsp : isSpace c = true
    · have htail : noPairs cs = true := noPairs_tail h
      cases b with
      | true => rw [collapseAux_cons_sp_t hsp]; exact ih true htail
      | false =>
        rw [collapseAux_cons_sp_f hsp, noPairs_cons_ne (by decide)]
        exact ih true htail
    · rw [collapseAux_cons_ns (Bool.not_eq_true _ ▸ hsp) b]
      by_cases hc : c = 40
      · subst hc
        rw [noPairs_cons40] at h ⊢
        rw [List.all_eq_true] at h ⊢
        intro x hx
        simp only [decide_eq_true_eq]
        rcases collapseAux_mem cs false x hx with h32 | hm
        · omega
        · have := h x hm
          simpa using this
      · rw [noPairs_cons_ne hc] at h ⊢
        exact ih false h

theorem collapseAux_sp32 : ∀ (l : Str) (b : Bool), sp32 (collapseAux b l) = true := by
  intro l
  induction l with
  | nil => intro b; rfl
  | cons c cs ih =>
    intro b
    by_cases hsp : isSpace c = true
    · cases b with
      | true => rw [collapseAux_cons_sp_t hsp]; exact ih true
      | false =>
        rw [collapseAux_cons_sp_f hsp]
        simp only [sp32, List.all_cons, Bool.and_eq_true]
        exact ⟨by decide, ih true⟩
    · rw [collapseAux_cons_ns (Bool.not_eq_true _ ▸ hsp) b]
      simp only [sp32, List.all_cons, Bool.and_eq_true]
      refine ⟨?_, ih false⟩
      rw [Bool.or_eq_true]
      left
      simp [hsp]

theorem collapseAux_noAdj_headNS : ∀ (l : Str),
    (∀ b, noAdj (collapseAux b l) = true) ∧ headNS (collapseAux true l) = true := by
  intro l
  induction l with
  | nil => exact ⟨fun _ => rfl, rfl⟩
  | cons c cs ih =>
    obtain ⟨ihAdj, ihHead⟩ := ih
    by_cases hsp : isSpace c = true
    · constructor
      · intro b
        cases b with
        | true => rw [collapseAux_cons_sp_t hsp]; exact ihAdj true
        | false =>
          rw [collapseAux_cons_sp_f hsp]
          rcases hx : collapseAux true cs with _ | ⟨d, rest⟩
          · rfl
          · have hd : headNS (d :: rest) = true := hx ▸ ihHead
            simp only [headNS, Bool.not_eq_true'] at hd
            have hAdj : noAdj (d :: rest) = true := hx ▸ ihAdj true
            simp only [noAdj, Bool.and_eq_true]
            refine ⟨?_, hAdj⟩
            simp [hd]
      · rw [collapseAux_cons_sp_t hsp]; exact ihHead
    · have hns : isSpace c = false := Bool.not_eq_true _ ▸ hsp
      constructor
      · intro b
        rw [collapseAux_cons_ns hns b]
        rcases hx : collapseAux false cs with _ | ⟨d, rest⟩
        · rfl
        · have hAdj : noAdj (d :: rest) = true := hx ▸ ihAdj false
          simp only [noAdj, Bool.and_eq_true]
          refine ⟨?_, hAdj⟩
          simp [hns]
      · rw [collapseAux_cons_ns hns true]
        simp [headNS, hns]

theorem sp32_of_subset {l m : Str} (h : sp32 l = true) (hsub : ∀ x ∈ m, x ∈ l) :
    sp32 m = true := by
  simp only [sp32, List.all_eq_true] at h ⊢
  intro x hx
  exact h x (hsub x hx)

theorem noAdj_tail {c : Nat} {m : Str} (h : noAdj (c :: m) = true) : noAdj m = true := by
  cases m with
  | nil => rfl
  | cons d rest =>
    simp only [noAdj, Bool.and_eq_true] at h
    exact h.2

theorem noAdj_append_left : ∀ (a b : Str), noAdj (a ++ b) = true → noAdj a = true := by
  intro a
  induction a with
  | nil => intro b _; rfl
  | cons c a' ih =>
    intro b h
    cases a' with
    | nil => rfl
    | cons d rest =>
      simp only [List.cons_append, noAdj, Bool.and_eq_true] at h ⊢
      refine ⟨h.1, ?_⟩
      have := ih b
      simp only [List.cons_append] at this
      exact this h.2

theorem noAdj_suffix : ∀ (a b : Str), noAdj (a ++ b) = true → noAdj b = true := by
  intro a
  induction a with
  | nil => intro b h; exact h
  | cons c a' ih =>
    intro b h
    exact ih b (noAdj_tail h)

/-- Splitting off the trailing whitespace: the left-stripped list is `strip l`
followed by a (whitespace) block. -/
theorem strip_append (l : Str) :
    ∃ w, l.dropWhile isSpace = strip l ++ w := by
  refine ⟨((l.dropWhile isSpace).reverse.takeWhile isSpace).reverse, ?_⟩
  unfold strip
  have h := List.takeWhile_append_dropWhile (p := isSpace)
    (l := (l.dropWhile isSpace).reverse)
  have h2 := congrArg List.reverse h
  rw [List.reverse_append, List.reverse_reverse] at h2
  exact h2.symm

theorem strip_subset (l : Str) : ∀ x ∈ strip l, x ∈ l := by
  intro x hx
  unfold strip at hx
  rw [List.mem_reverse] at hx
  have := List.dropWhile_subset _ hx
  rw [List.mem_reverse] at this
  exact List.dropWhile_subset _ this

theorem headNS_dropWhile (l : Str) : headNS (l.dropWhile isSpace) = true := by
  induction l with
  | nil => rfl
  | cons c cs ih =>
    rw [List.dropWhile_cons]
    by_cases hsp : isSpace c = true
    · rw [if_pos hsp]; exact ih
    · rw [if_neg hsp]
      simp only [headNS]
      simp [Bool.not_eq_true _ ▸ hsp]

theorem dropWhile_of_headNS {l : Str} (h : headNS l = true) :
    l.dropWhile isSpace = l := by
  cases l with
  | nil => rfl
  | cons c cs =>
    simp only [headNS, Bool.not_eq_true'] at h
    rw [List.dropWhile_cons, if_neg (by simp [h])]

/-! ### Transport of the invariants along `casefold` -/

theorem foldChar_isSpace (c : Nat) : isSpace (foldChar c) = isSpace c := by
  by_cases h : 65 ≤ c ∧ c ≤ 90
  · simp only [foldChar, if_pos h]
    have h1 : isSpace (c + 32) = false := by
      simp only [isSpace, Bool.or_eq_false_iff, decide_eq_false_iff_not]
      omega
    have h2 : isSpace c = false := by
      simp only [isSpace, Bool.or_eq_false_iff, decide_eq_false_iff_not]
      omega
    rw [h1, h2]
  · simp only [foldChar, if_neg h]

theorem foldChar_eq_40 {c : Nat} : foldChar c = 40 ↔ c = 40 := by
  by_cases h : 65 ≤ c ∧ c ≤ 90
  · simp only [foldChar, if_pos h]; omega
  · simp only [foldChar, if_neg h]

theorem foldChar_eq_41 {c : Nat} : foldChar c = 41 ↔ c = 41 := by
  by_cases h : 65 ≤ c ∧ c ≤ 90
  · simp only [foldChar, if_pos h]; omega
  · simp only [foldChar, if_neg h]

theorem foldChar_idem (c : Nat) : foldChar (foldChar c) = foldChar c := by
  by_cases h : 65 ≤ c ∧ c ≤ 90
  · simp only [foldChar, if_pos h]
    rw [if_neg (by omega)]
  · simp only [foldChar, if_neg h]

theorem casefold_noPairs : ∀ {l : Str}, noPairs l = true → noPairs (casefold l) = true := by
  intro l
  induction l with
  | nil => intro _; rfl
  | cons c cs ih =>
    intro h
    simp only [casefold, List.map_cons]
    by_cases hc : c = 40
    · subst hc
      rw [noPairs_cons40, List.all_eq_true] at h
      have h40 : foldChar 40 = 40 := by decide
      rw [h40, noPairs_cons40, List.all_eq_true]
      intro x hx
      obtain ⟨d, hd, rfl⟩ := List.mem_map.mp hx
      have := h d hd
      simp only [decide_eq_true_eq] at this ⊢
      intro hx41
      exact this (foldChar_eq_41.mp hx41)
    · rw [noPairs_cons_ne (fun h' => hc (foldChar_eq_40.mp h'))]
      rw [noPairs_cons_ne hc] at h
      exact ih h

theorem casefold_sp32 : ∀ {l : Str}, sp32 l = true → sp32 (casefold l) = true := by
  intro l h
  simp only [sp32, List.all_eq_true] at h ⊢
  intro x hx
  obtain ⟨d, hd, rfl⟩ := List.mem_map.mp hx
  have := h d hd
  rw [Bool.or_eq_true] at this ⊢
  rcases this with hns | h32
  · left
    rw [Bool.not_eq_true'] at hns ⊢
    rw [foldChar_isSpace]
    exact hns
  · right
    simp only [decide_eq_true_eq] at h32 ⊢
    subst h32
    decide

theorem casefold_noAdj : ∀ {l : Str}, noAdj l = true → noAdj (casefold l) = true := by
  intro l
  induction l with
  | nil => intro _; rfl
  | cons c cs ih =>
    intro h
    cases cs with
    | nil => rfl
    | cons d rest =>
      simp only [casefold, List.map_cons] at *
      simp only [noAdj, Bool.and_eq_true] at h ⊢
      refine ⟨?_, ih h.2⟩
      have h1 := h.1
      rw [foldChar_isSpace c, foldChar_isSpace d]
      exact h1

theorem casefold_headNS : ∀ {l : Str}, headNS l = true → headNS (casefold l) = true := by
  intro l h
  cases l with
  | nil => rfl
  | cons c cs =>
    simp only [casefold, List.map_cons, headNS] at h ⊢
    rw [foldChar_isSpace]
    exact h

theorem casefold_idem (l : Str) : casefold (casefold l) = casefold l := by
  simp only [casefold, List.map_map]
  exact List.map_congr_left fun x _ => foldChar_idem x

theorem collapseWS_fix : ∀ (l : Str), sp32 l = true → noAdj l = true →
    collapseWS l = l := by
  intro l
  induction l with
  | nil => intro _ _; rfl
  | cons c cs ih =>
    intro h32 hadj
    have h32' : sp32 cs = true := by
      simp only [sp32, List.all_cons, Bool.and_eq_true] at h32
      exact h32.2
    unfold collapseWS at *
    by_cases hsp : isSpace c = true
    · have hc32 : c = 32 := by
        simp only [sp32, List.all_cons, Bool.and_eq_true, Bool.or_eq_true] at h32
        rcases h32.1 with hns | h
        · rw [Bool.not_eq_true'] at hns
          rw [hns] at hsp
          cases hsp
        · exact decide_eq_true_eq.mp h
      rw [collapseAux_cons_sp_f hsp, hc32]
      congr 1
      cases cs with
      | nil => rfl
      | cons d rest =>
        have hd : isSpace d = false := by
          simp only [noAdj, Bool.and_eq_true] at hadj
          have h1 := hadj.1
          rw [hsp] at h1
          simpa using h1
        rw [collapseAux_cons_ns hd true]
        have := ih h32' (noAdj_tail hadj)
        rw [collapseAux_cons_ns hd false] at this
        exact this
    · have hns : isSpace c = false := Bool.not_eq_true _ ▸ hsp
      rw [collapseAux_cons_ns hns false]
      congr 1
      exact ih h32' (noAdj_tail hadj)

theorem strip_fix {l : Str} (h1 : headNS l = true) (h2 : headNS l.reverse = true) :
    strip l = l := by
  unfold strip
  rw [dropWhile_of_headNS h1, dropWhile_of_headNS h2, List.reverse_reverse]

/-- A string satisfying all the canonical-form invariants is a fixed point
of the whole normalizer. -/
theorem normalize_species_fix {o : Str} (hnp : noPairs o = true) (h32 : sp32 o = true)
    (hadj : noAdj o = true) (hh : headNS o = true) (hr : headNS o.reverse = true)
    (hcf : casefold o = o) :
    normalize_species o = o := by
  unfold normalize_species
  rw [subParens_fix o.length o (le_refl _) hnp]
  rw [collapseWS_fix o h32 hadj]
  rw [strip_fix hh hr]
  exact hcf

/-! ### The lexicographic order used by `sorted` -/

theorem strLe_total : ∀ a b : Str, strLe a b = true ∨ strLe b a = true := by
  intro a
  induction a with
  | nil => intro b; left; rfl
  | cons x as ih =>
    intro b
    cases b with
    | nil => right; rfl
    | cons y bs =>
      simp only [strLe]
      by_cases hxy : x < y
      · left; rw [if_pos hxy]
      · by_cases hyx : y < x
        · right; rw [if_pos hyx]
        · have hxe : x = y := by omega
          subst hxe
          rcases ih bs with h | h
          · left; rw [if_neg (lt_irrefl x), if_neg (lt_irrefl x)]; exact h
          · right; rw [if_neg (lt_irrefl x), if_neg (lt_irrefl x)]; exact h

theorem strLe_trans : ∀ a b c : Str,
    strLe a b = true → strLe b c = true → strLe a c = true := by
  intro a
  induction a with
  | nil => intro b c _ _; rfl
  | cons x as ih =>
    intro b c hab hbc
    cases b with
    | nil => simp [strLe] at hab
    | cons y bs =>
      cases c with
      | nil => simp [strLe] at hbc
      | cons z cs =>
        simp only [strLe] at hab hbc ⊢
        by_cases hxy : x < y
        · by_cases hyz : y < z
          · rw [if_pos (by omega)]
          · by_cases hzy : z < y
            · rw [if_neg hyz, if_pos hzy] at hbc
              exact absurd hbc (by simp)
            · rw [if_pos (by omega)]
        · by_cases hyx : y < x
          · rw [if_neg hxy, if_pos hyx] at hab
            exact absurd hab (by simp)
          · have hxe : x = y := by omega
            subst hxe
            rw [if_neg (lt_irrefl x), if_neg (lt_irrefl x)] at hab
            by_cases hxz : x < z
            · rw [if_pos hxz]
            · by_cases hzx : z < x
              · rw [if_neg hxz, if_pos hzx] at hbc
                exact absurd hbc (by simp)
              · rw [if_neg hxz, if_neg hzx] at hbc ⊢
                exact ih bs cs hab hbc

theorem strLe_antisymm : ∀ a b : Str,
    strLe a b = true → strLe b a = true → a = b := by
  intro a
  induction a with
  | nil =>
    intro b _ hba
    cases b with
    | nil => rfl
    | cons y bs => simp [strLe] at hba
  | cons x as ih =>
    intro b hab hba
    cases b with
    | nil => simp [strLe] at hab
    | cons y bs =>
      simp only [strLe] at hab hba
      by_cases hxy : x < y
      · rw [if_neg (by omega), if_pos hxy] at hba
        exact absurd hba (by simp)
      · by_cases hyx : y < x
        · rw [if_neg hxy, if_pos hyx] at hab
          exact absurd hab (by simp)
        · have hxe : x = y := by omega
          subst hxe
          rw [if_neg (lt_irrefl x), if_neg (lt_irrefl x)] at hab hba
          rw [ih bs hab hba]

theorem sortStr_perm (l : List Str) : List.Perm (sortStr l) l :=
  List.perm_insertionSort StrLe l

theorem mem_sortStr {s : Str} {l : List Str} : s ∈ sortStr l ↔ s ∈ l :=
  (sortStr_perm l).mem_iff

theorem sortStr_sorted (l : List Str) : (sortStr l).Pairwise StrLe := by
  letI : IsTotal Str StrLe := ⟨strLe_total⟩
  letI : IsTrans Str StrLe := ⟨strLe_trans⟩
  exact List.sorted_insertionSort StrLe l

theorem sortStr_nodup {l : List Str} (h : l.Nodup) : (sortStr l).Nodup :=
  (sortStr_perm l).nodup_iff.mpr h

/-! ### Claim C6: idempotence of the name normalizer -/

/-- C6, counterexample.  `normalize_species` is not idempotent on every
string: on `"(a\nb)"` the first pass cannot match the parenthesized span
(`.` does not cross the newline) but turns the newline into a space, so the
second pass deletes the span: `"(a\nb)" ↦ "(a b)" ↦ ""`. -/
theorem normalize_species_not_idempotent :
    normalize_species (normalize_species [40, 97, 10, 98, 41]) ≠
      normalize_species [40, 97, 10, 98, 41] := by decide

/-- Any output of `casefold ∘ strip ∘ collapseWS` whose input already
satisfies the parenthesis invariant is a fixed point of the normalizer. -/
theorem normalize_canonical {v : Str} (hnp : noPairs v = true)
    (h32 : sp32 v = true) (hadj : noAdj v = true) :
    normalize_species (casefold (strip v)) = casefold (strip v) := by
  obtain ⟨w, hw⟩ := strip_append v
  have hnp_x : noPairs (v.dropWhile isSpace) = true := by
    apply noPairs_suffix (v.takeWhile isSpace)
    rw [List.takeWhile_append_dropWhile]
    exact hnp
  have hnp_u : noPairs (strip v) = true := by
    rw [hw] at hnp_x
    exact noPairs_append_left _ _ hnp_x
  have h32_u : sp32 (strip v) = true := sp32_of_subset h32 (strip_subset v)
  have hadj_x : noAdj (v.dropWhile isSpace) = true := by
    apply noAdj_suffix (v.takeWhile isSpace)
    rw [List.takeWhile_append_dropWhile]
    exact hadj
  have hadj_u : noAdj (strip v) = true := by
    rw [hw] at hadj_x
    exact noAdj_append_left _ _ hadj_x
  have hhead_u : headNS (strip v) = true := by
    have hx := headNS_dropWhile v
    rw [hw] at hx
    cases hu' : strip v with
    | nil => rfl
    | cons c u' =>
      rw [hu'] at hx
      simpa [headNS, List.cons_append] using hx
  have hrev_u : headNS (strip v).reverse = true := by
    have hrw : (strip v).reverse = (v.dropWhile isSpace).reverse.dropWhile isSpace := by
      unfold strip
      rw [List.reverse_reverse]
    rw [hrw]
    exact headNS_dropWhile _
  apply normalize_species_fix
  · exact casefold_noPairs hnp_u
  · exact casefold_sp32 h32_u
  · exact casefold_noAdj hadj_u
  · exact casefold_headNS hhead_u
  · show headNS (casefold (strip v)).reverse = true
    unfold casefold
    rw [← List.map_reverse]
    exact casefold_headNS hrev_u
  · exact casefold_idem _

/-- C6 (amended): the normalizer is idempotent on every string that contains
no newline character.  (The counterexample above forces this restriction:
only a newline can hide a parenthesized span from the first pass.) -/
theorem normalize_species_idem (s : Str) (h10 : (10 : Nat) ∉ s) :
    normalize_species (normalize_species s) = normalize_species s := by
  have hnp_t : noPairs (subParens s) = true :=
    subParens_noPairs s.length s (le_refl _) h10
  have hnp_v : noPairs (collapseWS (subParens s)) = true :=
    collapseAux_noPairs _ false hnp_t
  have h32_v : sp32 (collapseWS (subParens s)) = true := collapseAux_sp32 _ false
  have hadj_v : noAdj (collapseWS (subParens s)) = true :=
    (collapseAux_noAdj_headNS _).1 false
  exact normalize_canonical hnp_v h32_v hadj_v

/-- Witness for C6 at a concrete input. -/
theorem normalize_species_idem_witness :
    (10 : Nat) ∉ encode "Great Egret (Ardea alba)" ∧
    normalize_species (normalize_species (encode "Great Egret (Ardea alba)")) =
      normalize_species (encode "Great Egret (Ardea alba)") :=
  ⟨by decide, normalize_species_idem (encode "Great Egret (Ardea alba)") (by decide)⟩

/-! ### Claim C1: the no-match report -/

/-- C1 (amended): the no-match report consists exactly of the normalized
names that occur in the observation table, are **non-empty**, and are not
keys of the master index; it is strictly ascending (hence duplicate-free).
The original claim omitted the non-emptiness exclusion
(`if s` in `sorted([s for s in species_in_table if s and s not in master])`). -/
theorem no_match_report_correct (f : Frame) (sc : Str) (master : Master) :
    (∀ s, s ∈ no_match_list f sc master ↔
      (s ∈ normsOf f sc ∧ s ≠ [] ∧ lookupM master s = none)) ∧
    (no_match_list f sc master).Pairwise StrLt := by
  constructor
  · intro s
    unfold no_match_list
    rw [mem_sortStr, List.mem_filter, List.mem_dedup]
    simp only [Bool.and_eq_true, decide_eq_true_eq, and_assoc]
  · have hsorted : (no_match_list f sc master).Pairwise StrLe := sortStr_sorted _
    have hnd : (no_match_list f sc master).Nodup :=
      sortStr_nodup ((List.nodup_dedup (normsOf f sc)).filter _)
    exact hsorted.and hnd

/-- C1, counterexample to the claim as stated: a table with one missing
species value normalizes to the empty name, which belongs to the distinct
normalized names and is not a key of the (empty) master index, yet the
script's report drops it. -/
theorem no_match_report_spec_mismatch :
    no_match_list obsNaFrame (encode "species") [] ≠
      no_match_spec_version obsNaFrame (encode "species") [] := by decide

/-! ### Claim C2: invalid master rows -/

/-- C2: evaluation of `load_master` at the failing input.  A master row with
a missing name but parseable coordinates is **kept**, keyed by the empty
string: `dropna(subset=["_nombre_norm", ...])` can never drop a row on the
name component because `normalize_species` returns `""` (a string, not
`NaN`) for missing names. -/
theorem load_master_empty_name_key :
    load_master masterNaNameFrame = Except.ok [([], [(1, 2)])] := by decide

/-! ### Claim C7: the column resolver -/

/-- C7: `find_col` fails iff no actual header, whitespace-collapsed and
casefolded, equals a casefolded candidate; the error carries exactly the
candidate list and the actual headers (the data of the `KeyError` message);
on success it returns the first matching header in header order. -/
theorem find_col_correct (columns cands : List Str) :
    ((∃ e, find_col columns cands = Except.error e) ↔
      ∀ c ∈ columns, headerNorm c ∉ cands.map casefold) ∧
    (∀ e, find_col columns cands = Except.error e → e = ⟨cands, columns⟩) ∧
    (∀ c, find_col columns cands = Except.ok c →
      ∃ pre post, columns = pre ++ c :: post ∧
        headerNorm c ∈ cands.map casefold ∧
        ∀ d ∈ pre, headerNorm d ∉ cands.map casefold) := by
  rcases hf : columns.find? (fun c => decide (headerNorm c ∈ cands.map casefold))
    with _ | c <;> simp only [find_col, hf]
  · refine ⟨?_, ?_, ?_⟩
    · constructor
      · intro _ c hc
        have h2 := List.find?_eq_none.mp hf c hc
        simpa using h2
      · intro _
        exact ⟨⟨cands, columns⟩, rfl⟩
    · intro e he
      exact (Except.error.inj he).symm
    · intro c hc
      exact Except.noConfusion hc
  · obtain ⟨hp, as, bs, hsplit, hpre⟩ := List.find?_eq_some.mp hf
    have hpc : headerNorm c ∈ cands.map casefold := by simpa using hp
    refine ⟨?_, ?_, ?_⟩
    · constructor
      · rintro ⟨e, he⟩
        exact Except.noConfusion he
      · intro hall
        have hmem : c ∈ columns := by
          rw [hsplit]
          exact List.mem_append_right _ (List.mem_cons_self _ _)
        exact absurd hpc (hall c hmem)
    · intro e he
      exact Except.noConfusion he
    · intro c' hc
      have : c = c' := Except.ok.inj hc
      subst this
      refine ⟨as, bs, hsplit, hpc, ?_⟩
      intro d hd
      have := hpre d hd
      simpa using this

/-- Witness for C7 at a concrete header list. -/
theorem find_col_correct_witness :
    ∃ pre post, [encode "Especie", encode "n"] = pre ++ (encode "Especie") :: post ∧
      headerNorm (encode "Especie") ∈ speciesCands.map casefold ∧
      ∀ d ∈ pre, headerNorm d ∉ speciesCands.map casefold :=
  (find_col_correct [encode "Especie", encode "n"] speciesCands).2.2
    (encode "Especie") (by decide)

/-! ### Claim C5: master-index invariants -/

theorem lookupM_some_mem : ∀ {m : Master} {s : Str} {coords : List (ℚ × ℚ)},
    lookupM m s = some coords → (s, coords) ∈ m := by
  intro m
  induction m with
  | nil => intro s coords h; simp [lookupM] at h
  | cons kv rest ih =>
    intro s coords h
    obtain ⟨k, v⟩ := kv
    simp only [lookupM] at h
    by_cases hk : k = s
    · rw [if_pos hk] at h
      injection h with h2
      subst h2
      subst hk
      exact List.mem_cons_self _ _
    · rw [if_neg hk] at h
      exact List.mem_cons_of_mem _ (ih h)

theorem buildMaster_lookup {rows : List MRow} {s : Str} {coords : List (ℚ × ℚ)}
    (h : lookupM (buildMaster rows) s = some coords) :
    coords = groupCoords (rows.filter validRow) s ∧ coords ≠ [] := by
  have hmem := lookupM_some_mem h
  unfold buildMaster at hmem
  obtain ⟨k, hk, hg⟩ := List.mem_filterMap.mp hmem
  by_cases hemp : (groupCoords (rows.filter validRow) k).isEmpty = true
  · rw [if_pos hemp] at hg
    exact absurd hg (by simp)
  · rw [if_neg hemp] at hg
    injection hg with hg'
    rw [Prod.mk.injEq] at hg'
    obtain ⟨hks, hcs⟩ := hg'
    subst hks
    constructor
    · exact hcs.symm
    · intro hnil
      rw [hcs, hnil] at hemp
      exact hemp rfl

/-- C5: every key of the index built by `load_master` maps to a non-empty
candidate list, and every candidate pair comes from an actual master row with
that normalized name whose latitude and longitude both parsed as numbers. -/
theorem load_master_entries_valid (f : Frame) (m : Master) (s : Str)
    (coords : List (ℚ × ℚ)) (hok : load_master f = Except.ok m)
    (hs : lookupM m s = some coords) :
    coords ≠ [] ∧ ∀ p ∈ coords, ∃ r, r ∈ masterRows f ∧ mName r = s ∧
      toNumeric r.2.1 = some p.1 ∧ toNumeric r.2.2 = some p.2 := by
  have hm : m = buildMaster (masterRows f) := by
    unfold load_master at hok
    cases hmc : masterCols f with
    | ok x =>
      rw [hmc] at hok
      simp only [Except.map] at hok
      exact (Except.ok.inj hok).symm
    | error e =>
      rw [hmc] at hok
      simp [Except.map] at hok
  subst hm
  obtain ⟨hcoords, hne⟩ := buildMaster_lookup hs
  refine ⟨hne, ?_⟩
  intro p hp
  rw [hcoords] at hp
  unfold groupCoords at hp
  obtain ⟨r, hr, hif⟩ := List.mem_filterMap.mp hp
  obtain ⟨hrm, hrv⟩ := List.mem_filter.mp hr
  by_cases hname : mName r = s
  · rw [if_pos hname] at hif
    injection hif with hif'
    unfold validRow at hrv
    rw [Bool.and_eq_true] at hrv
    obtain ⟨h1, h2⟩ := hrv
    obtain ⟨q1, hq1⟩ := Option.isSome_iff_exists.mp h1
    obtain ⟨q2, hq2⟩ := Option.isSome_iff_exists.mp h2
    refine ⟨r, hrm, hname, ?_, ?_⟩
    · rw [hq1, ← hif']
      unfold mPair
      rw [hq1]
      rfl
    · rw [hq2, ← hif']
      unfold mPair
      rw [hq2]
      rfl
  · rw [if_neg hname] at hif
    exact absurd hif (by simp)

/-- Witness for C5 at a concrete master table. -/
theorem load_master_entries_valid_witness :
    ([((3 : ℚ), (4 : ℚ))] ≠ [] ∧
      ∀ p ∈ [((3 : ℚ), (4 : ℚ))], ∃ r, r ∈ masterRows masterTwoFrame ∧
        mName r = encode "ave una" ∧
        toNumeric r.2.1 = some p.1 ∧ toNumeric r.2.2 = some p.2) :=
  load_master_entries_valid masterTwoFrame
    [([], [(30, 40)]), (encode "ave una", [(3, 4)])] (encode "ave una") [(3, 4)]
    (by decide) (by decide)

/-! ### Frame lemmas -/

theorem getCol_setCol_self : ∀ (f : Frame) (c : Str) (v : List Cell),
    getCol (setCol f c v) c = v := by
  intro f c v
  induction f with
  | nil => simp [setCol, getCol]
  | cons p rest ih =>
    obtain ⟨c', v'⟩ := p
    simp only [setCol]
    by_cases h : c' = c
    · rw [if_pos h]
      simp [getCol]
    · rw [if_neg h]
      simp only [getCol]
      rw [if_neg h]
      exact ih

theorem getCol_setCol_ne : ∀ (f : Frame) {c c' : Str} (v : List Cell), c ≠ c' →
    getCol (setCol f c v) c' = getCol f c' := by
  intro f
  induction f with
  | nil =>
    intro c c' v h
    simp only [setCol, getCol]
    rw [if_neg h]
  | cons p rest ih =>
    intro c c' v h
    obtain ⟨k, w⟩ := p
    simp only [setCol]
    by_cases hk : k = c
    · rw [if_pos hk]
      simp only [getCol]
      rw [if_neg h, if_neg (by rw [hk]; exact h)]
    · rw [if_neg hk]
      simp only [getCol]
      by_cases hk' : k = c'
      · rw [if_pos hk', if_pos hk']
      · rw [if_neg hk', if_neg hk']
        exact ih v h

theorem getCol_dropCol_ne : ∀ (f : Frame) {c c' : Str}, c' ≠ c →
    getCol (dropCol f c) c' = getCol f c' := by
  intro f
  induction f with
  | nil => intro c c' _; rfl
  | cons p rest ih =>
    intro c c' h
    obtain ⟨k, w⟩ := p
    simp only [dropCol, List.filter_cons]
    by_cases hk : k = c
    · rw [if_neg (by simp [hk])]
      simp only [getCol]
      rw [if_neg (by rw [hk]; exact fun he => h he.symm)]
      exact ih h
    · rw [if_pos (by simp [hk])]
      simp only [getCol]
      by_cases hk' : k = c'
      · rw [if_pos hk', if_pos hk']
      · rw [if_neg hk', if_neg hk']
        exact ih h

theorem colNames_setCol_not_mem : ∀ (f : Frame) {c : Str} (v : List Cell),
    c ∉ colNames f → colNames (setCol f c v) = colNames f ++ [c] := by
  intro f
  induction f with
  | nil => intro c v _; rfl
  | cons p rest ih =>
    intro c v h
    obtain ⟨k, w⟩ := p
    simp only [colNames, List.map_cons, List.mem_cons] at h
    push_neg at h
    simp only [setCol]
    rw [if_neg (fun he => h.1 he.symm)]
    simp only [colNames, List.map_cons, List.cons_append]
    congr 1
    exact ih v h.2

theorem colNames_setCol_mem : ∀ (f : Frame) {c : Str} (v : List Cell),
    c ∈ colNames f → colNames (setCol f c v) = colNames f := by
  intro f
  induction f with
  | nil => intro c v h; simp [colNames] at h
  | cons p rest ih =>
    intro c v h
    obtain ⟨k, w⟩ := p
    simp only [setCol]
    by_cases hk : k = c
    · rw [if_pos hk]
      simp [colNames, hk]
    · rw [if_neg hk]
      simp only [colNames, List.map_cons]
      congr 1
      apply ih
      simp only [colNames, List.map_cons, List.mem_cons] at h
      rcases h with h | h
      · exact absurd h.symm hk
      · exact h

theorem colNames_dropCol (f : Frame) (c : Str) :
    colNames (dropCol f c) = (colNames f).filter (fun x => decide (x ≠ c)) := by
  induction f with
  | nil => rfl
  | cons p rest ih =>
    obtain ⟨k, w⟩ := p
    simp only [dropCol, List.filter_cons, colNames, List.map_cons]
    by_cases hk : k = c
    · rw [if_neg (by simp [hk]), if_neg (by simp [hk])]
      exact ih
    · rw [if_pos (by simp [hk]), if_pos (by simp [hk])]
      simp only [colNames, List.map_cons]
      congr 1

theorem filter_ne_of_not_mem {l : List Str} {c : Str} (h : c ∉ l) :
    l.filter (fun x => decide (x ≠ c)) = l := by
  apply List.filter_eq_self.mpr
  intro a ha
  simp only [decide_eq_true_eq]
  intro he
  exact h (he ▸ ha)

/-! ### Shape of the `%.6f` rendering -/

theorem natStrF_digits : ∀ (fuel n : Nat), n < fuel →
    (natStrF fuel n).all isDigitCh = true := by
  intro fuel
  induction fuel with
  | zero => intro n h; omega
  | succ fuel ih =>
    intro n h
    simp only [natStrF]
    by_cases h10 : n < 10
    · rw [if_pos h10]
      simp only [List.all_cons, List.all_nil, Bool.and_true]
      simp only [isDigitCh, Bool.and_eq_true, decide_eq_true_eq]
      omega
    · rw [if_neg h10]
      rw [List.all_append]
      have hdiv : n / 10 < fuel := by
        have := Nat.div_lt_self (by omega : 0 < n) (by omega : 1 < 10)
        omega
      rw [ih (n / 10) hdiv]
      simp only [List.all_cons, List.all_nil, Bool.and_true, Bool.true_and]
      simp only [isDigitCh, Bool.and_eq_true, decide_eq_true_eq]
      have := Nat.mod_lt n (by omega : 0 < 10)
      omega

theorem natStrF_ne_nil : ∀ (fuel n : Nat), n < fuel → natStrF fuel n ≠ [] := by
  intro fuel
  induction fuel with
  | zero => intro n h; omega
  | succ fuel _ =>
    intro n _
    simp only [natStrF]
    by_cases h10 : n < 10
    · rw [if_pos h10]; simp
    · rw [if_neg h10]; simp

theorem natStr_digits (n : Nat) : (natStr n).all isDigitCh = true :=
  natStrF_digits (n + 1) n (by omega)

theorem natStr_ne_nil (n : Nat) : natStr n ≠ [] :=
  natStrF_ne_nil (n + 1) n (by omega)

theorem natStrF_len : ∀ (fuel n k : Nat), n < fuel → n < 10 ^ k → 1 ≤ k →
    (natStrF fuel n).length ≤ k := by
  intro fuel
  induction fuel with
  | zero => intro n k h; omega
  | succ fuel ih =>
    intro n k h hk h1
    simp only [natStrF]
    by_cases h10 : n < 10
    · rw [if_pos h10]
      simpa using h1
    · rw [if_neg h10]
      rw [List.length_append]
      have hdiv : n / 10 < fuel := by
        have := Nat.div_lt_self (by omega : 0 < n) (by omega : 1 < 10)
        omega
      have hk2 : 2 ≤ k := by
        by_contra hlt
        have : k = 1 := by omega
        subst this
        simp at hk
        omega
      have hdivk : n / 10 < 10 ^ (k - 1) := by
        rw [Nat.div_lt_iff_lt_mul (by omega : 0 < 10)]
        calc n < 10 ^ k := hk
        _ = 10 ^ (k - 1) * 10 := by
              rw [← Nat.pow_succ]
              congr 1
              omega
      have := ih (n / 10) (k - 1) hdiv hdivk (by omega)
      simp only [List.length_cons, List.length_nil]
      omega

theorem pad6_length {m : Nat} (h : m < 1000000) : (pad6 m).length = 6 := by
  unfold pad6
  rw [List.length_append, List.length_replicate]
  have hle : (natStr m).length ≤ 6 := by
    apply natStrF_len (m + 1) m 6 (by omega)
    · simpa using h
    · omega
  omega

theorem pad6_digits (m : Nat) : (pad6 m).all isDigitCh = true := by
  unfold pad6
  rw [List.all_append, natStr_digits, Bool.and_true]
  rw [List.all_eq_true]
  intro x hx
  have := List.eq_of_mem_replicate hx
  subst this
  decide

theorem takeWhile_digits (l post : Str) (h : l.all isDigitCh = true) :
    (l ++ 46 :: post).takeWhile isDigitCh = l := by
  induction l with
  | nil =>
    simp only [List.nil_append]
    rw [List.takeWhile_cons, if_neg (by decide)]
  | cons c cs ih =>
    rw [List.all_cons, Bool.and_eq_true] at h
    simp only [List.cons_append]
    rw [List.takeWhile_cons, if_pos h.1, ih h.2]

theorem dropWhile_digits (l post : Str) (h : l.all isDigitCh = true) :
    (l ++ 46 :: post).dropWhile isDigitCh = 46 :: post := by
  induction l with
  | nil =>
    simp only [List.nil_append]
    rw [List.dropWhile_cons, if_neg (by decide)]
  | cons c cs ih =>
    rw [List.all_cons, Bool.and_eq_true] at h
    simp only [List.cons_append]
    rw [List.dropWhile_cons, if_pos h.1, ih h.2]

theorem sixCore_shape (a b : Nat) (hb : b < 1000000) :
    sixCore (natStr a ++ 46 :: pad6 b) = true := by
  unfold sixCore
  rw [takeWhile_digits _ _ (natStr_digits a), dropWhile_digits _ _ (natStr_digits a)]
  simp only [List.head?_cons, List.tail_cons, Bool.and_eq_true, Bool.not_eq_true']
  refine ⟨⟨⟨?_, ?_⟩, ?_⟩, ?_⟩
  · rw [List.isEmpty_eq_false]
    exact natStr_ne_nil a
  · simp
  · simp [pad6_length hb]
  · exact pad6_digits b

theorem is6dec_shape : ∀ (pre : Str), (pre = [] ∨ pre = [45]) → ∀ (a b : Nat),
    b < 1000000 → is6dec (pre ++ natStr a ++ 46 :: pad6 b) = true := by
  intro pre hpre a b hb
  unfold is6dec
  obtain ⟨c, cs, hcs⟩ := List.exists_cons_of_ne_nil (natStr_ne_nil a)
  have hcd : isDigitCh c = true := by
    have hd := natStr_digits a
    rw [hcs, List.all_cons, Bool.and_eq_true] at hd
    exact hd.1
  have hc45 : c ≠ 45 := by
    simp only [isDigitCh, Bool.and_eq_true, decide_eq_true_eq] at hcd
    omega
  rcases hpre with rfl | rfl
  · rw [List.nil_append]
    have hhead : (natStr a ++ 46 :: pad6 b).head? = some c := by
      rw [hcs, List.cons_append, List.head?_cons]
    rw [if_neg (by rw [hhead]; intro he; exact hc45 (Option.some.inj he))]
    exact sixCore_shape a b hb
  · rw [List.singleton_append, List.cons_append, List.head?_cons]
    rw [if_pos rfl, List.tail_cons]
    exact sixCore_shape a b hb

theorem is6dec_fmt6 (q : ℚ) : is6dec (fmt6 q) = true := by
  show is6dec ((if q < 0 then [45] else []) ++
    natStr ((2 * q.num.natAbs * 1000000 + q.den) / (2 * q.den) / 1000000) ++
    46 :: pad6 ((2 * q.num.natAbs * 1000000 + q.den) / (2 * q.den) % 1000000)) = true
  apply is6dec_shape
  · by_cases h : q < 0
    · right; rw [if_pos h]
    · left; rw [if_neg h]
  · exact Nat.mod_lt _ (by omega)

theorem is6dec_ne_nil {t : Str} (h : is6dec t = true) : t ≠ [] := by
  intro hnil
  subst hnil
  exact absurd h (by decide)

theorem fmt6_ne_nil (q : ℚ) : fmt6 q ≠ [] := is6dec_ne_nil (is6dec_fmt6 q)

/-! ### Lengths of the assignment vector -/

theorem assignRowsV_length : ∀ (stream : Nat → Nat) (coords : List (ℚ × ℚ))
    (idxs : List Nat) (pos : Nat) (v : List (Option (ℚ × ℚ))),
    ((assignRowsV stream coords idxs pos v).1).length = v.length := by
  intro stream coords idxs
  induction idxs with
  | nil => intro pos v; rfl
  | cons i rest ih =>
    intro pos v
    simp only [assignRowsV]
    rw [ih]
    exact List.length_set v i _

theorem assignGroupV_eq (stream : Nat → Nat) (coords : List (ℚ × ℚ))
    (idxs : List Nat) (pos : Nat) (v : List (Option (ℚ × ℚ))) :
    assignGroupV stream coords idxs pos v = assignRowsV stream coords idxs pos v := by
  rcases idxs with _ | ⟨i, _ | ⟨j, rest⟩⟩ <;> rfl

theorem assignLoopV_length : ∀ (stream : Nat → Nat) (master : Master)
    (norms : List Str) (keys : List Str) (pos : Nat) (v : List (Option (ℚ × ℚ))),
    (assignLoopV stream master norms keys pos v).length = v.length := by
  intro stream master norms keys
  induction keys with
  | nil => intro pos v; rfl
  | cons k ks ih =>
    intro pos v
    rcases h : lookupM master k with _ | ⟨_ | ⟨c0, coords⟩⟩ <;>
      simp only [assignLoopV, h]
    · exact ih pos v
    · exact ih pos v
    · rw [ih, assignGroupV_eq, assignRowsV_length]

theorem coordVec_length (f : Frame) (sc : Str) (master : Master) (stream : Nat → Nat) :
    (coordVec f sc master stream).length = (normsOf f sc).length := by
  unfold coordVec assignVec
  rw [assignLoopV_length, List.length_replicate]

/-! ### The three derived output columns -/

theorem assign_coords_latCol (f : Frame) (sc : Str) (master : Master) (stream : Nat → Nat) :
    getCol (assign_coords f sc master stream) latName =
      (coordVec f sc master stream).map (fun o => Cell.text (match o with
        | none => []
        | some p => fmt6 p.1)) := by
  simp only [assign_coords]
  rw [getCol_dropCol_ne _ (by decide), getCol_setCol_ne _ _ (by decide),
    getCol_setCol_self]

theorem assign_coords_lonCol (f : Frame) (sc : Str) (master : Master) (stream : Nat → Nat) :
    getCol (assign_coords f sc master stream) lonName =
      (coordVec f sc master stream).map (fun o => Cell.text (match o with
        | none => []
        | some p => fmt6 p.2)) := by
  simp only [assign_coords]
  rw [getCol_dropCol_ne _ (by decide), getCol_setCol_self]

theorem assign_coords_latlonCol (f : Frame) (sc : Str) (master : Master) (stream : Nat → Nat) :
    getCol (assign_coords f sc master stream) latlonName =
      (coordVec f sc master stream).map (fun o => Cell.text (fmt_pair o)) := by
  simp only [assign_coords]
  rw [getCol_dropCol_ne _ (by decide), getCol_setCol_ne _ _ (by decide),
    getCol_setCol_ne _ _ (by decide), getCol_setCol_self]

/-! ### Claim C3: the all-empty-or-all-formatted dichotomy -/

/-- C3: in every row of the enriched output, either all three derived fields
are the empty string, or `lat` and `lon` are 6-fractional-digit decimal
strings and `lat_lon` is exactly `lat ++ "," ++ lon` — exactly one of the two. -/
theorem derived_fields_dichotomy (f : Frame) (sc : Str) (master : Master)
    (stream : Nat → Nat) (i : Nat) (hi : i < (normsOf f sc).length) :
    Xor'
      (getCell (assign_coords f sc master stream) latName i = Cell.text [] ∧
       getCell (assign_coords f sc master stream) lonName i = Cell.text [] ∧
       getCell (assign_coords f sc master stream) latlonName i = Cell.text [])
      (∃ la lo : Str, is6dec la = true ∧ is6dec lo = true ∧
        getCell (assign_coords f sc master stream) latName i = Cell.text la ∧
        getCell (assign_coords f sc master stream) lonName i = Cell.text lo ∧
        getCell (assign_coords f sc master stream) latlonName i =
          Cell.text (la ++ 44 :: lo)) := by
  have hi' : i < (coordVec f sc master stream).length := by
    rw [coordVec_length]; exact hi
  obtain ⟨o, ho⟩ : ∃ o, (coordVec f sc master stream)[i]? = some o :=
    ⟨(coordVec f sc master stream)[i], List.getElem?_eq_getElem hi'⟩
  cases o with
  | none =>
    have hcell_lat : getCell (assign_coords f sc master stream) latName i =
        Cell.text [] := by
      unfold getCell
      rw [assign_coords_latCol, List.getD_eq_getElem?_getD, List.getElem?_map, ho]
      rfl
    have hcell_lon : getCell (assign_coords f sc master stream) lonName i =
        Cell.text [] := by
      unfold getCell
      rw [assign_coords_lonCol, List.getD_eq_getElem?_getD, List.getElem?_map, ho]
      rfl
    have hcell_latlon : getCell (assign_coords f sc master stream) latlonName i =
        Cell.text [] := by
      unfold getCell
      rw [assign_coords_latlonCol, List.getD_eq_getElem?_getD, List.getElem?_map, ho]
      rfl
    refine Or.inl ⟨⟨hcell_lat, hcell_lon, hcell_latlon⟩, ?_⟩
    rintro ⟨la, lo, h6a, _, hla, _, _⟩
    rw [hcell_lat] at hla
    have hla' : ([] : Str) = la := Cell.text.inj hla
    rw [← hla'] at h6a
    exact absurd h6a (by decide)
  | some p =>
    have hcell_lat : getCell (assign_coords f sc master stream) latName i =
        Cell.text (fmt6 p.1) := by
      unfold getCell
      rw [assign_coords_latCol, List.getD_eq_getElem?_getD, List.getElem?_map, ho]
      rfl
    have hcell_lon : getCell (assign_coords f sc master stream) lonName i =
        Cell.text (fmt6 p.2) := by
      unfold getCell
      rw [assign_coords_lonCol, List.getD_eq_getElem?_getD, List.getElem?_map, ho]
      rfl
    have hcell_latlon : getCell (assign_coords f sc master stream) latlonName i =
        Cell.text (fmt6 p.1 ++ 44 :: fmt6 p.2) := by
      unfold getCell
      rw [assign_coords_latlonCol, List.getD_eq_getElem?_getD, List.getElem?_map, ho]
      rfl
    refine Or.inr ⟨⟨fmt6 p.1, fmt6 p.2, is6dec_fmt6 _, is6dec_fmt6 _,
      hcell_lat, hcell_lon, hcell_latlon⟩, ?_⟩
    rintro ⟨hla, _, _⟩
    rw [hcell_lat] at hla
    exact fmt6_ne_nil p.1 (Cell.text.inj hla)

/-- Witness for C3: a table with one matched and one unmatched row. -/
theorem derived_fields_dichotomy_witness :
    Xor'
      (getCell (assign_coords obsSmallFrame (encode "species")
          [(encode "ave una", [(3, 4)])] (fun _ => 0)) latName 0 = Cell.text [] ∧
       getCell (assign_coords obsSmallFrame (encode "species")
          [(encode "ave una", [(3, 4)])] (fun _ => 0)) lonName 0 = Cell.text [] ∧
       getCell (assign_coords obsSmallFrame (encode "species")
          [(encode "ave una", [(3, 4)])] (fun _ => 0)) latlonName 0 = Cell.text [])
      (∃ la lo : Str, is6dec la = true ∧ is6dec lo = true ∧
        getCell (assign_coords obsSmallFrame (encode "species")
          [(encode "ave una", [(3, 4)])] (fun _ => 0)) latName 0 = Cell.text la ∧
        getCell (assign_coords obsSmallFrame (encode "species")
          [(encode "ave una", [(3, 4)])] (fun _ => 0)) lonName 0 = Cell.text lo ∧
        getCell (assign_coords obsSmallFrame (encode "species")
          [(encode "ave una", [(3, 4)])] (fun _ => 0)) latlonName 0 =
          Cell.text (la ++ 44 :: lo)) :=
  derived_fields_dichotomy obsSmallFrame (encode "species")
    [(encode "ave una", [(3, 4)])] (fun _ => 0) 0 (by decide)

/-! ### Claim C10: pre-existing columns are overwritten, `_species_norm` removed -/

/-- C10: the output's `lat`, `lopnong` and `lat_lon` columns always hold the
derived fields (so any same-named input column's values are overwritten), and
`_species_norm` is never a column of the output (so a pre-existing one is
silently removed). -/
theorem derived_columns_overwrite (f : Frame) (sc : Str) (master : Master)
    (stream : Nat → Nat) :
    getCol (assign_coords f sc master stream) latName =
      (coordVec f sc master stream).map (fun o => Cell.text (match o with
        | none => []
        | some p => fmt6 p.1)) ∧
    getCol (assign_coords f sc master stream) lonName =
      (coordVec f sc master stream).map (fun o => Cell.text (match o with
        | none => []
        | some p => fmt6 p.2)) ∧
    getCol (assign_coords f sc master stream) latlonName =
      (coordVec f sc master stream).map (fun o => Cell.text (fmt_pair o)) ∧
    spnName ∉ colNames (assign_coords f sc master stream) := by
  refine ⟨assign_coords_latCol f sc master stream,
    assign_coords_lonCol f sc master stream,
    assign_coords_latlonCol f sc master stream, ?_⟩
  intro hmem
  simp only [assign_coords] at hmem
  rw [colNames_dropCol] at hmem
  have := List.of_mem_filter hmem
  simp at this

/-! ### Claim C8: pass-through of original columns -/

theorem colNames_setCol (f : Frame) (c : Str) (v : List Cell) :
    colNames (setCol f c v) =
      if c ∈ colNames f then colNames f else colNames f ++ [c] := by
  by_cases h : c ∈ colNames f
  · rw [if_pos h, colNames_setCol_mem f v h]
  · rw [if_neg h, colNames_setCol_not_mem f v h]

/-- C8 (amended): provided the observation table has no column already named
`lat`, `lopnong`, `lat_lon` or `_species_norm`, the enriched output keeps all
original columns, values and row order unchanged and only appends the three
derived columns.  (The proviso is forced by the counterexample below.) -/
theorem original_columns_preserved (f : Frame) (sc : Str) (master : Master)
    (stream : Nat → Nat)
    (h1 : latName ∉ colNames f) (h2 : lonName ∉ colNames f)
    (h3 : latlonName ∉ colNames f) (h4 : spnName ∉ colNames f) :
    colNames (assign_coords f sc master stream) =
      colNames f ++ [latName, lonName, latlonName] ∧
    ∀ c ∈ colNames f, getCol (assign_coords f sc master stream) c = getCol f c := by
  constructor
  · have m_lat : latName ∉ colNames f ++ [spnName] := by
      simp only [List.mem_append, List.mem_singleton]
      rintro (h | h)
      · exact h1 h
      · exact absurd h (by decide)
    have m_lon : lonName ∉ colNames f ++ [spnName] ++ [latName] := by
      simp only [List.mem_append, List.mem_singleton]
      rintro ((h | h) | h)
      · exact h2 h
      · exact absurd h (by decide)
      · exact absurd h (by decide)
    have m_latlon : latlonName ∉ colNames f ++ [spnName] ++ [latName] ++ [lonName] := by
      simp only [List.mem_append, List.mem_singleton]
      rintro (((h | h) | h) | h)
      · exact h3 h
      · exact absurd h (by decide)
      · exact absurd h (by decide)
      · exact absurd h (by decide)
    have e1 : ∀ v1, colNames (setCol f spnName v1) = colNames f ++ [spnName] :=
      fun v1 => colNames_setCol_not_mem f v1 h4
    have e2 : ∀ v1 v2, colNames (setCol (setCol f spnName v1) latName v2) =
        colNames f ++ [spnName] ++ [latName] := by
      intro v1 v2
      rw [colNames_setCol_not_mem _ _ (by rw [e1]; exact m_lat), e1]
    have e3 : ∀ v1 v2 v3,
        colNames (setCol (setCol (setCol f spnName v1) latName v2) lonName v3) =
        colNames f ++ [spnName] ++ [latName] ++ [lonName] := by
      intro v1 v2 v3
      rw [colNames_setCol_not_mem _ _ (by rw [e2]; exact m_lon), e2]
    have e4 : ∀ v1 v2 v3 v4,
        colNames (setCol (setCol (setCol (setCol f spnName v1) latName v2)
          lonName v3) latlonName v4) =
        colNames f ++ [spnName] ++ [latName] ++ [lonName] ++ [latlonName] := by
      intro v1 v2 v3 v4
      rw [colNames_setCol_not_mem _ _ (by rw [e3]; exact m_latlon), e3]
    have e5 : ∀ v1 v2 v3 v4 v5,
        colNames (setCol (setCol (setCol (setCol (setCol f spnName v1) latName v2)
          lonName v3) latlonName v4) latName v5) =
        colNames f ++ [spnName] ++ [latName] ++ [lonName] ++ [latlonName] := by
      intro v1 v2 v3 v4 v5
      rw [colNames_setCol_mem _ _ (by rw [e4]; simp), e4]
    have e6 : ∀ v1 v2 v3 v4 v5 v6,
        colNames (setCol (setCol (setCol (setCol (setCol (setCol f spnName v1)
          latName v2) lonName v3) latlonName v4) latName v5) lonName v6) =
        colNames f ++ [spnName] ++ [latName] ++ [lonName] ++ [latlonName] := by
      intro v1 v2 v3 v4 v5 v6
      rw [colNames_setCol_mem _ _ (by rw [e5]; simp), e5]
    simp only [assign_coords]
    rw [colNames_dropCol, e6]
    rw [List.filter_append, List.filter_append, List.filter_append,
      List.filter_append, filter_ne_of_not_mem h4]
    rw [show List.filter (fun x => decide (x ≠ spnName)) [spnName] = [] from by decide]
    rw [show List.filter (fun x => decide (x ≠ spnName)) [latName] = [latName] from by decide]
    rw [show List.filter (fun x => decide (x ≠ spnName)) [lonName] = [lonName] from by decide]
    rw [show List.filter (fun x => decide (x ≠ spnName)) [latlonName] = [latlonName]
      from by decide]
    simp
  · intro c hc
    have hc1 : latName ≠ c := fun he => h1 (he ▸ hc)
    have hc2 : lonName ≠ c := fun he => h2 (he ▸ hc)
    have hc3 : latlonName ≠ c := fun he => h3 (he ▸ hc)
    have hc4 : spnName ≠ c := fun he => h4 (he ▸ hc)
    simp only [assign_coords]
    rw [getCol_dropCol_ne _ (fun he => hc4 he.symm),
      getCol_setCol_ne _ _ hc2, getCol_setCol_ne _ _ hc1,
      getCol_setCol_ne _ _ hc3, getCol_setCol_ne _ _ hc2,
      getCol_setCol_ne _ _ hc1, getCol_setCol_ne _ _ hc4]

/-- C8, counterexample to the claim as stated: when the observation table
already has a `lat` column, its original values are not preserved. -/
theorem original_column_clobbered :
    getCol (assign_coords obsLatFrame (encode "species") [] (fun _ => 0)) latName ≠
      getCol obsLatFrame latName := by decide

/-- Witness for C8 at a concrete collision-free table. -/
theorem original_columns_preserved_witness :
    (colNames (assign_coords obsSmallFrame (encode "species") [] (fun _ => 0)) =
      colNames obsSmallFrame ++ [latName, lonName, latlonName] ∧
    ∀ c ∈ colNames obsSmallFrame,
      getCol (assign_coords obsSmallFrame (encode "species") [] (fun _ => 0)) c =
        getCol obsSmallFrame c) :=
  original_columns_preserved obsSmallFrame (encode "species") [] (fun _ => 0)
    (by decide) (by decide) (by decide) (by decide)

/-! ### Stream consumption: the allocation formula (claims C4 and C9) -/

theorem mem_positions {norms : List Str} {s : Str} {i : Nat} :
    i ∈ positions norms s ↔ i < norms.length ∧ norms.getD i [] = s := by
  simp [positions, List.mem_filter, List.mem_range]

theorem positions_nodup (norms : List Str) (s : Str) : (positions norms s).Nodup :=
  (List.nodup_range norms.length).filter _

theorem positions_disjoint {norms : List Str} {s s' : Str} {i : Nat}
    (h : i ∈ positions norms s) (h' : i ∈ positions norms s') : s = s' := by
  have h1 := (mem_positions.mp h).2
  have h2 := (mem_positions.mp h').2
  rw [← h1, ← h2]

theorem sortedKeys_nodup (norms : List Str) : (sortedKeys norms).Nodup :=
  sortStr_nodup (List.nodup_dedup norms)

theorem mem_sortedKeys {norms : List Str} {s : Str} :
    s ∈ sortedKeys norms ↔ s ∈ norms :=
  mem_sortStr.trans List.mem_dedup

theorem assignRowsV_snd : ∀ (stream : Nat → Nat) (coords : List (ℚ × ℚ))
    (idxs : List Nat) (pos : Nat) (v : List (Option (ℚ × ℚ))),
    (assignRowsV stream coords idxs pos v).2 = pos + idxs.length := by
  intro stream coords idxs
  induction idxs with
  | nil => intro pos v; rfl
  | cons i rest ih =>
    intro pos v
    simp only [assignRowsV]
    rw [ih]
    simp only [List.length_cons]
    omega

theorem assignRowsV_get_notmem : ∀ (stream : Nat → Nat) (coords : List (ℚ × ℚ))
    (idxs : List Nat) (pos : Nat) (v : List (Option (ℚ × ℚ))) (i : Nat),
    i ∉ idxs → ((assignRowsV stream coords idxs pos v).1)[i]? = v[i]? := by
  intro stream coords idxs
  induction idxs with
  | nil => intro pos v i _; rfl
  | cons i0 rest ih =>
    intro pos v i hi
    simp only [List.mem_cons] at hi
    push_neg at hi
    simp only [assignRowsV]
    rw [ih _ _ _ hi.2]
    exact List.getElem?_set_ne (fun he => hi.1 he.symm)

theorem assignRowsV_get : ∀ (stream : Nat → Nat) (coords : List (ℚ × ℚ))
    (idxs : List Nat) (j i pos : Nat) (v : List (Option (ℚ × ℚ))),
    idxs.Nodup → idxs[j]? = some i → i < v.length →
    ((assignRowsV stream coords idxs pos v).1)[i]? =
      some (some (coords.getD (drawAt stream (pos + j) coords.length) (0, 0))) := by
  intro stream coords idxs
  induction idxs with
  | nil => intro j i pos v _ hj; simp at hj
  | cons i0 rest ih =>
    intro j i pos v hnd hj hi
    obtain ⟨hni, hnd'⟩ := List.nodup_cons.mp hnd
    cases j with
    | zero =>
      simp only [List.getElem?_cons_zero] at hj
      have hii : i0 = i := Option.some.inj hj
      subst hii
      simp only [assignRowsV]
      rw [assignRowsV_get_notmem _ _ _ _ _ _ hni]
      rw [List.getElem?_set_self hi]
      rw [Nat.add_zero]
    | succ j =>
      simp only [List.getElem?_cons_succ] at hj
      simp only [assignRowsV]
      have hstep := ih j i (pos + 1) (v.set i0 (some (coords.getD
        (drawAt stream pos coords.length) (0, 0)))) hnd' hj
        (by rw [List.length_set]; exact hi)
      rw [hstep]
      have harith : pos + 1 + j = pos + (j + 1) := by omega
      rw [harith]

theorem assignLoopV_get_notmem : ∀ (stream : Nat → Nat) (master : Master)
    (norms : List Str) (keys : List Str) (pos : Nat) (v : List (Option (ℚ × ℚ)))
    (i : Nat), (∀ k ∈ keys, i ∉ positions norms k) →
    (assignLoopV stream master norms keys pos v)[i]? = v[i]? := by
  intro stream master norms keys
  induction keys with
  | nil => intro pos v i _; rfl
  | cons k ks ih =>
    intro pos v i hk
    have hkk := hk k (List.mem_cons_self _ _)
    have hks : ∀ k' ∈ ks, i ∉ positions norms k' :=
      fun k' hk' => hk k' (List.mem_cons_of_mem _ hk')
    rcases h : lookupM master k with _ | ⟨_ | ⟨c0, ctl⟩⟩ <;>
      simp only [assignLoopV, h]
    · exact ih pos v i hks
    · exact ih pos v i hks
    · rw [ih _ _ _ hks, assignGroupV_eq, assignRowsV_get_notmem _ _ _ _ _ _ hkk]

theorem assignLoopV_formula : ∀ (stream : Nat → Nat) (master : Master)
    (norms : List Str) (keys : List Str) (s : Str) (coords : List (ℚ × ℚ))
    (j i pos : Nat) (v : List (Option (ℚ × ℚ))),
    keys.Nodup → s ∈ keys → lookupM master s = some coords → coords ≠ [] →
    (positions norms s)[j]? = some i → v.length = norms.length →
    (assignLoopV stream master norms keys pos v)[i]? =
      some (some (coords.getD
        (drawAt stream (pos + offsetIn master norms keys s + j) coords.length)
        (0, 0))) := by
  intro stream master norms keys
  induction keys with
  | nil => intro s coords j i pos v _ hmem; simp at hmem
  | cons k ks ih =>
    intro s coords j i pos v hnd hmem hc hne hj hlen
    obtain ⟨hkn, hnd'⟩ := List.nodup_cons.mp hnd
    have hi_mem : i ∈ positions norms s := List.mem_iff_getElem?.mpr ⟨j, hj⟩
    have hi_lt : i < v.length := by
      rw [hlen]
      exact (mem_positions.mp hi_mem).1
    by_cases hk : k = s
    · subst hk
      rcases coords with _ | ⟨c0, ctl⟩
      · exact absurd rfl hne
      simp only [assignLoopV, hc]
      have hoff : offsetIn master norms (k :: ks) k = 0 := by
        simp [offsetIn]
      rw [hoff, Nat.add_zero]
      have hnomem : ∀ k' ∈ ks, i ∉ positions norms k' := by
        intro k' hk' hmem'
        exact hkn ((positions_disjoint hi_mem hmem').symm ▸ hk')
      rw [assignLoopV_get_notmem _ _ _ _ _ _ _ hnomem]
      rw [assignGroupV_eq]
      exact assignRowsV_get _ _ _ j i pos v (positions_nodup norms k) hj hi_lt
    · have hmem' : s ∈ ks := by
        rcases List.mem_cons.mp hmem with he | hm
        · exact absurd he.symm hk
        · exact hm
      have hoff : offsetIn master norms (k :: ks) s =
          groupLen master norms k + offsetIn master norms ks s := by
        simp [offsetIn, hk]
      rw [hoff]
      rcases h : lookupM master k with _ | ⟨_ | ⟨c0, ctl⟩⟩ <;>
        simp only [assignLoopV, h]
      · have hg : groupLen master norms k = 0 := by simp [groupLen, h]
        rw [ih s coords j i pos v hnd' hmem' hc hne hj hlen, hg, Nat.zero_add]
      · have hg : groupLen master norms k = 0 := by simp [groupLen, h]
        rw [ih s coords j i pos v hnd' hmem' hc hne hj hlen, hg, Nat.zero_add]
      · have hg : groupLen master norms k = (positions norms k).length := by
          simp [groupLen, h]
        have hlen' : ((assignGroupV stream (c0 :: ctl) (positions norms k) pos v).1).length
            = norms.length := by
          rw [assignGroupV_eq, assignRowsV_length, hlen]
        have hsnd : (assignGroupV stream (c0 :: ctl) (positions norms k) pos v).2
            = pos + (positions norms k).length := by
          rw [assignGroupV_eq, assignRowsV_snd]
        rw [ih s coords j i _ _ hnd' hmem' hc hne hj hlen', hsnd, hg]
        have harith : pos + (positions norms k).length + offsetIn master norms ks s + j
            = pos + ((positions norms k).length + offsetIn master norms ks s) + j := by
          omega
        rw [harith]

theorem assignVec_formula (stream : Nat → Nat) (master : Master) (norms : List Str)
    (s : Str) (coords : List (ℚ × ℚ)) (j i : Nat)
    (hc : lookupM master s = some coords) (hne : coords ≠ [])
    (hj : (positions norms s)[j]? = some i) :
    (assignVec stream master norms)[i]? =
      some (some (coords.getD
        (drawAt stream (offsetIn master norms (sortedKeys norms) s + j) coords.length)
        (0, 0))) := by
  have hi_mem : i ∈ positions norms s := List.mem_iff_getElem?.mpr ⟨j, hj⟩
  have hs_norms : s ∈ norms := by
    obtain ⟨hlt, hgd⟩ := mem_positions.mp hi_mem
    rw [List.getD_eq_getElem?_getD, List.getElem?_eq_getElem hlt] at hgd
    simp only [Option.getD_some] at hgd
    rw [← hgd]
    exact List.getElem_mem hlt
  unfold assignVec
  have := assignLoopV_formula stream master norms (sortedKeys norms) s coords j i 0
    (List.replicate norms.length none) (sortedKeys_nodup norms)
    (mem_sortedKeys.mpr hs_norms) hc hne hj (List.length_replicate _ _)
  rw [this, Nat.zero_add]

/-! ### Claim C4: assigned pairs come from the candidate list -/

/-- C4: for every observation row whose normalized species is a key of the
master index with a non-empty candidate list, the assigned pair is an element
of that candidate list (the sampled index is reduced into `[0, K)`, so the
indexing is in bounds), and the formatted output fields render exactly that
pair. -/
theorem assigned_from_candidates (f : Frame) (sc : Str) (master : Master)
    (stream : Nat → Nat) (i : Nat) (s : Str) (coords : List (ℚ × ℚ))
    (hs : (normsOf f sc)[i]? = some s) (hc : lookupM master s = some coords)
    (hne : coords ≠ []) :
    ∃ p ∈ coords, (coordVec f sc master stream)[i]? = some (some p) ∧
      getCell (assign_coords f sc master stream) latName i = Cell.text (fmt6 p.1) ∧
      getCell (assign_coords f sc master stream) lonName i = Cell.text (fmt6 p.2) ∧
      getCell (assign_coords f sc master stream) latlonName i =
        Cell.text (fmt6 p.1 ++ 44 :: fmt6 p.2) := by
  obtain ⟨hlt, hval⟩ := List.getElem?_eq_some_iff.mp hs
  have hi_mem : i ∈ positions (normsOf f sc) s := by
    apply mem_positions.mpr
    refine ⟨hlt, ?_⟩
    rw [List.getD_eq_getElem?_getD, hs]
    rfl
  obtain ⟨j, hj⟩ := List.mem_iff_getElem?.mp hi_mem
  have hvec : (coordVec f sc master stream)[i]? = some (some (coords.getD
      (drawAt stream
        (offsetIn master (normsOf f sc) (sortedKeys (normsOf f sc)) s + j)
        coords.length) (0, 0))) :=
    assignVec_formula stream master (normsOf f sc) s coords j i hc hne hj
  have hK : 0 < coords.length := List.length_pos.mpr hne
  have hd : drawAt stream
      (offsetIn master (normsOf f sc) (sortedKeys (normsOf f sc)) s + j)
      coords.length < coords.length := by
    unfold drawAt
    exact Nat.mod_lt _ hK
  refine ⟨coords.getD (drawAt stream
      (offsetIn master (normsOf f sc) (sortedKeys (normsOf f sc)) s + j)
      coords.length) (0, 0), ?_, hvec, ?_, ?_, ?_⟩
  · rw [List.getD_eq_getElem?_getD, List.getElem?_eq_getElem hd]
    simp only [Option.getD_some]
    exact List.getElem_mem hd
  · unfold getCell
    rw [assign_coords_latCol, List.getD_eq_getElem?_getD, List.getElem?_map, hvec]
    rfl
  · unfold getCell
    rw [assign_coords_lonCol, List.getD_eq_getElem?_getD, List.getElem?_map, hvec]
    rfl
  · unfold getCell
    rw [assign_coords_latlonCol, List.getD_eq_getElem?_getD, List.getElem?_map, hvec]
    rfl

/-- Witness for C4 at a concrete matched row. -/
theorem assigned_from_candidates_witness :
    ∃ p ∈ [((3 : ℚ), (4 : ℚ))],
      (coordVec obsSmallFrame (encode "species")
        [(encode "ave una", [(3, 4)])] (fun _ => 0))[0]? = some (some p) ∧
      getCell (assign_coords obsSmallFrame (encode "species")
        [(encode "ave una", [(3, 4)])] (fun _ => 0)) latName 0 = Cell.text (fmt6 p.1) ∧
      getCell (assign_coords obsSmallFrame (encode "species")
        [(encode "ave una", [(3, 4)])] (fun _ => 0)) lonName 0 = Cell.text (fmt6 p.2) ∧
      getCell (assign_coords obsSmallFrame (encode "species")
        [(encode "ave una", [(3, 4)])] (fun _ => 0)) latlonName 0 =
        Cell.text (fmt6 p.1 ++ 44 :: fmt6 p.2) :=
  assigned_from_candidates obsSmallFrame (encode "species")
    [(encode "ave una", [(3, 4)])] (fun _ => 0) 0 (encode "ave una") [(3, 4)]
    (by decide) (by decide) (by decide)

/-! ### Claim C9: order of pseudo-random consumption -/

/-- C9: the allocation formula.  Draws are consumed group by group, groups in
ascending sorted order of the distinct normalized names (`offsetIn` over
`sortedKeys`, not over first-appearance order), and within a group one draw
per row in original row order: the row that is the `j`-th position of species
`s` receives the raw draw number `offsetIn … s + j`.  The second conjunct
demonstrates the consequence on concrete data: rotating the table's rows by
two — a permutation moving an `a`-row across the `b`-row — changes the
candidate received by the row with id 2 (with the identity stream). -/
theorem rng_consumption_order :
    (∀ (stream : Nat → Nat) (master : Master) (f : Frame) (sc s : Str)
      (coords : List (ℚ × ℚ)) (j i : Nat),
      lookupM master s = some coords → coords ≠ [] →
      (positions (normsOf f sc) s)[j]? = some i →
      (coordVec f sc master stream)[i]? =
        some (some (coords.getD
          (drawAt stream
            (offsetIn master (normsOf f sc) (sortedKeys (normsOf f sc)) s + j)
            coords.length) (0, 0)))) ∧
    ((List.zip (getCol obsOrderFrame (encode "species"))
        (getCol obsOrderFrame (encode "id"))).rotate 2 =
      List.zip (getCol obsOrderFrameRot (encode "species"))
        (getCol obsOrderFrameRot (encode "id")) ∧
     getCell obsOrderFrame (encode "id") 1 = Cell.num 2 ∧
     getCell obsOrderFrameRot (encode "id") 2 = Cell.num 2 ∧
     getCell (assign_coords obsOrderFrame (encode "species") masterDemo
        (fun n => n)) latName 1 ≠
       getCell (assign_coords obsOrderFrameRot (encode "species") masterDemo
        (fun n => n)) latName 2) := by
  constructor
  · intro stream master f sc s coords j i hc hne hj
    exact assignVec_formula stream master (normsOf f sc) s coords j i hc hne hj
  · exact ⟨by decide, by decide, by decide, by decide⟩

/-- Witness for C9: the formula applied to the single `b`-row of the
demonstration table; `b` sorts after `a`, so this row consumes a later draw. -/
theorem rng_consumption_order_witness :
    (coordVec obsOrderFrame (encode "species") masterDemo (fun n => n))[0]? =
      some (some (([((7 : ℚ), (7 : ℚ)), (9, 9)]).getD
        (drawAt (fun n => n)
          (offsetIn masterDemo (normsOf obsOrderFrame (encode "species"))
            (sortedKeys (normsOf obsOrderFrame (encode "species"))) (encode "b") + 0)
          ([((7 : ℚ), (7 : ℚ)), (9, 9)]).length) (0, 0))) :=
  rng_consumption_order.1 (fun n => n) masterDemo obsOrderFrame (encode "species")
    (encode "b") [(7, 7), (9, 9)] 0 0 (by decide) (by decide) (by decide)

end CoordScript
